import Mathlib

/-!
Verification of the safe-portals schema combinator library (src/index.ts).

The library turns untyped JS values into typed values (`read`, the spec's
"decode") and back (`write`, the spec's "encode").  We embed the untyped /
typed value domain as one inductive family `Value` (JS values including the
`Date` objects produced by the date schemas, with JS numbers idealised as
exact rationals), the schema grammar as an inductive family `Schema` whose
constructors are exactly the library's combinators, and `read` / `write` as
executable interpreters translated line by line from the source.

Failures are modelled by `Except JsError`: `JsError.parseError wanted got`
is the library's own `ParseError` (its message is
"Parse error: expected WANTED but found GOT"), and `JsError.typeError`
stands for the runtime TypeError raised by an unguarded JS operation
(property access on null/undefined, calling a method a value lacks).
-/

namespace SafePortals

mutual
/-- JS values: the `Jsonifyable` domain of the source (null, undefined,
booleans, numbers, strings, arrays, plain objects) plus the `Date` objects
the date schemas produce.  Numbers are idealised as exact rationals (IEEE-754
rounding and the exponential rendering of very large / very small doubles are
outside the model).  A `Date` is valid by construction and carries its
`getTime()` value in milliseconds.  Object fields keep JS insertion order. -/
inductive Value : Type where
  | vnull : Value
  | undefined : Value
  | bool : Bool → Value
  | num : Rat → Value
  | str : String → Value
  | arr : ValueList → Value
  | obj : ValueFields → Value
  | date : Int → Value
  deriving Repr, DecidableEq

inductive ValueList : Type where
  | nil : ValueList
  | cons : Value → ValueList → ValueList
  deriving Repr, DecidableEq

inductive ValueFields : Type where
  | nil : ValueFields
  | cons : String → Value → ValueFields → ValueFields
  deriving Repr, DecidableEq
end

/-- JS loose-nullish test: `v == null` holds exactly for null and undefined. -/
def Value.nullish : Value → Bool
  | .vnull => true
  | .undefined => true
  | _ => false

/-- JS truthiness (null, undefined, false, 0 and the empty string are falsy;
NaN does not arise in the model). -/
def Value.truthy : Value → Bool
  | .vnull => false
  | .undefined => false
  | .bool b => b
  | .num q => decide (q ≠ 0)
  | .str s => decide (s ≠ "")
  | _ => true

/-- The values accepted by the source's object guard
`o instanceof Object && !(o instanceof Array)`: plain objects and Dates
(strings, numbers, booleans, null and undefined are not `instanceof Object`;
arrays are excluded explicitly). -/
def Value.objLike : Value → Bool
  | .obj _ => true
  | .date _ => true
  | _ => false

/-- First binding of a key in a field list; JS objects have unique keys, so
first is the only one.  A missing key yields undefined, like JS `o[k]`. -/
def ValueFields.lookup : ValueFields → String → Value
  | .nil, _ => .undefined
  | .cons k v rest, key => if k = key then v else rest.lookup key

/-- JS property assignment / object-spread override `o[k] = v`: an existing
key keeps its position and gets the new value, a new key is appended. -/
def ValueFields.set : ValueFields → String → Value → ValueFields
  | .nil, key, v => .cons key v .nil
  | .cons k w rest, key, v =>
      if k = key then .cons k v rest else .cons k w (rest.set key v)

/-- Keys of a field list, in order. -/
def ValueFields.keys : ValueFields → List String
  | .nil => []
  | .cons k _ rest => k :: rest.keys

/-- Append two field lists (used to reason about `ValueFields.set`). -/
def ValueFields.append : ValueFields → ValueFields → ValueFields
  | .nil, gs => gs
  | .cons k v rest, gs => .cons k v (rest.append gs)

/-- JS named property read on a value already known not to be nullish
(e.g. behind the source's object guard): objects yield the binding or
undefined, every other value yields undefined.  Built-in properties such as
`length` are not modelled; no schema in this development accesses them. -/
def Value.getProp (o : Value) (k : String) : Value :=
  match o with
  | .obj kvs => kvs.lookup k
  | _ => .undefined

/-- Length of a value list. -/
def ValueList.length : ValueList → Nat
  | .nil => 0
  | .cons _ rest => 1 + rest.length

/-- Element `i` of a value list, or undefined past the end (JS `a[i]`). -/
def ValueList.get : ValueList → Nat → Value
  | .nil, _ => .undefined
  | .cons v _, 0 => v
  | .cons _ rest, n + 1 => rest.get n

/-- Tail of a value list (empty list: itself). -/
def ValueList.tail : ValueList → ValueList
  | .nil => .nil
  | .cons _ rest => rest

/-- Convert to an ordinary list (used only in statements and proofs). -/
def ValueList.toList : ValueList → List Value
  | .nil => []
  | .cons v rest => v :: rest.toList

/-- Convert to an ordinary association list (statements and proofs only). -/
def ValueFields.toList : ValueFields → List (String × Value)
  | .nil => []
  | .cons k v rest => (k, v) :: rest.toList

/-! ### Exact decimal arithmetic and the JS numeric string functions

Rationals are always constructed through `Rat.divInt`, which the kernel can
evaluate, so concrete runs of the interpreters reduce by `decide` / `rfl`. -/

/-- The rational m / 10^k, the form every number produced by `parseFloat`
takes. -/
def decRat (m : Int) (k : Nat) : Rat := Rat.divInt m ((10 : Int) ^ k)

/-- An integer as a rational, built as a literal structure so that it is
canonical and kernel-computable. -/
def ratOfInt (i : Int) : Rat := ⟨i, 1, Nat.one_ne_zero, Nat.coprime_one_right _⟩

/-- Multiply a rational by 10^n without going through the kernel-opaque
`Rat.mul` (used for the seconds→milliseconds scaling of `dateUnixSecs`). -/
def mulPow10 (q : Rat) (n : Nat) : Rat := Rat.divInt (q.num * (10 : Int) ^ n) q.den

/-- Truncation toward zero, as ECMA-262 ToIntegerOrInfinity does when a
number becomes a Date time value. -/
def ratTrunc (q : Rat) : Int := q.num.tdiv q.den

/-- ECMA-262 TimeClip: a Date time value is valid iff its magnitude is at
most 8.64e15 milliseconds; the number is truncated toward zero. -/
def timeClip (x : Rat) : Option Int :=
  if |x| ≤ ((8640000000000000 : Int) : Rat) then some (ratTrunc x) else none

/-- The decimal digit characters for 0..9 (a catch-all for ≥ 10, never hit). -/
def digitChar : Nat → Char
  | 0 => '0' | 1 => '1' | 2 => '2' | 3 => '3' | 4 => '4'
  | 5 => '5' | 6 => '6' | 7 => '7' | 8 => '8' | 9 => '9'
  | _ => '*'

/-- Read a digit string (most significant first) as a natural number. -/
def digitsToNat (ds : List Char) : Nat :=
  ds.foldl (fun a c => 10 * a + (c.toNat - 48)) 0

/-- Decimal digits of a natural number, most significant first; the fuel
argument makes the recursion structural so the kernel can run it (any fuel
above the digit count gives the same answer; callers pass n + 1). -/
def natToDigitsGo : Nat → Nat → List Char
  | 0, _ => []
  | fuel + 1, n =>
      if n < 10 then [digitChar n]
      else natToDigitsGo fuel (n / 10) ++ [digitChar (n % 10)]

/-- Decimal digits of a natural number, most significant first. -/
def natToDigits (n : Nat) : List Char := natToDigitsGo (n + 1) n

/-- Decimal string of an integer, in the form JS prints integral numbers. -/
def intToString (i : Int) : String :=
  (if i < 0 then "-" else "") ++ String.mk (natToDigits i.natAbs)

/-- The whitespace characters `parseInt` / `parseFloat` skip (the common
subset of the JS WhiteSpace / LineTerminator productions). -/
def jsWhitespace (c : Char) : Bool :=
  c = ' ' || c = '\t' || c = '\n' || c = '\r' || c = '\x0b' || c = '\x0c'

/-- Split an optional leading sign: (true for minus, remaining input). -/
def splitSign : List Char → Bool × List Char
  | [] => (false, [])
  | c :: rest =>
      if c = '-' then (true, rest)
      else if c = '+' then (false, rest)
      else (false, c :: rest)

/-- Value of a hexadecimal digit, if it is one. -/
def hexDigitVal (c : Char) : Option Nat :=
  if '0' ≤ c ∧ c ≤ '9' then some (c.toNat - 48)
  else if 'a' ≤ c ∧ c ≤ 'f' then some (c.toNat - 87)
  else if 'A' ≤ c ∧ c ≤ 'F' then some (c.toNat - 55)
  else none

/-- Is the character a hexadecimal digit? -/
def isHexDigit (c : Char) : Bool := (hexDigitVal c).isSome

/-- Read a hex digit string as a natural number. -/
def hexDigitsToNat (ds : List Char) : Nat :=
  ds.foldl (fun a c => 16 * a + ((hexDigitVal c).getD 0)) 0

/-- JS `parseInt(s)` with no radix argument: skip whitespace, optional sign,
then either a 0x/0X-prefixed run of hex digits or a maximal run of decimal
digits; NaN (here: none) when no digit is found. -/
def parseIntJS (s : String) : Option Int :=
  let cs := s.toList.dropWhile jsWhitespace
  let sgn := splitSign cs
  let body := sgn.2
  let applySign : Nat → Int := fun n => if sgn.1 then -(n : Int) else (n : Int)
  match body with
  | c0 :: c1 :: rest =>
      if c0 = '0' ∧ (c1 = 'x' ∨ c1 = 'X') then
        let hs := rest.takeWhile isHexDigit
        if hs.isEmpty then none else some (applySign (hexDigitsToNat hs))
      else
        let ds := body.takeWhile Char.isDigit
        if ds.isEmpty then none else some (applySign (digitsToNat ds))
  | _ =>
      let ds := body.takeWhile Char.isDigit
      if ds.isEmpty then none else some (applySign (digitsToNat ds))

/-- Optional exponent part of a decimal literal: `e`/`E`, optional sign,
digits; ignored (exponent 0) when the digits are missing, as JS's longest
valid prefix rule demands. -/
def parseExpPart (cs : List Char) : Int :=
  match cs with
  | c :: rest =>
      if c = 'e' ∨ c = 'E' then
        let sgn := splitSign rest
        let ds := sgn.2.takeWhile Char.isDigit
        if ds.isEmpty then 0
        else if sgn.1 then -(digitsToNat ds : Int) else (digitsToNat ds : Int)
      else 0
  | [] => 0

/-- JS `parseFloat(s)`: skip whitespace, then the longest prefix matching
sign? (digits [. digits?] | . digits) exponent?; NaN (none) when no digit is
found.  `Infinity` is not modelled (no claim exercises it). -/
def parseFloatJS (s : String) : Option Rat :=
  let cs := s.toList.dropWhile jsWhitespace
  let sgn := splitSign cs
  let ip := sgn.2.takeWhile Char.isDigit
  let afterInt := sgn.2.dropWhile Char.isDigit
  let fp :=
    match afterInt with
    | '.' :: rest => rest.takeWhile Char.isDigit
    | _ => []
  let afterFrac :=
    match afterInt with
    | '.' :: rest => rest.dropWhile Char.isDigit
    | _ => afterInt
  if ip.isEmpty ∧ fp.isEmpty then none
  else
    let m : Int := (digitsToNat ip * 10 ^ fp.length + digitsToNat fp : Nat)
    let msigned : Int := if sgn.1 then -m else m
    let e := parseExpPart afterFrac
    if 0 ≤ e then some (decRat (msigned * (10 : Int) ^ e.toNat) fp.length)
    else some (decRat msigned (fp.length + (-e).toNat))

/-- Smallest k ≤ bound with d ∣ 10^k, searched with structural fuel. -/
def decExpGo (d : Nat) : Nat → Nat → Option Nat
  | 0, _ => none
  | fuel + 1, k => if d ∣ 10 ^ k then some k else decExpGo d fuel (k + 1)

/-- Smallest k with d ∣ 10^k, if any (a k below d + 1 exists whenever one
exists at all, since d is then of the form 2^a·5^b with a, b < d). -/
def decExp (d : Nat) : Option Nat := decExpGo d (d + 1) 0

/-- Zero-padded decimal digits of r, exactly k characters (needs r < 10^k). -/
def padDigits (k : Nat) (r : Nat) : List Char :=
  List.replicate (k - (natToDigits r).length) '0' ++ natToDigits r

/-- The string JS prints for a finite-decimal rational (sign, integer part,
then the fractional digits when there are any).  Rationals whose denominator
is not of the form 2^a·5^b cannot arise from JS doubles; for totality they
render as a fraction, a branch no reachable value hits. -/
def ratToDecimal (q : Rat) : String :=
  let sign := if q.num < 0 then "-" else ""
  let n := q.num.natAbs
  match decExp q.den with
  | some k =>
      let m := n * (10 ^ k / q.den)
      if k = 0 then sign ++ String.mk (natToDigits m)
      else
        sign ++ String.mk (natToDigits (m / 10 ^ k)) ++ "." ++
          String.mk (padDigits k (m % 10 ^ k))
  | none => sign ++ String.mk (natToDigits n) ++ "/" ++ String.mk (natToDigits q.den)

/-- Stand-in for `Date.prototype.toISOString`: an injective canonical string
for the date's time value.  The ECMA-262 calendar arithmetic is abstracted;
what the library relies on — `new Date(d.toISOString())` recovers exactly
`d.getTime()` — is preserved by parsing this rendering back exactly
(`dateFromString`).  Like a real ISO string, it is not valid numeric input
for `parseInt`/`parseFloat` prefix parsing beyond its leading letters. -/
def isoRender (ms : Int) : String := "ISO:" ++ intToString ms

/-- The time value written in a date string of the form `isoRender`
produces, before range clipping; any other string has none. -/
def dateStringValue (s : String) : Option Int :=
  match s.toList with
  | 'I' :: 'S' :: 'O' :: ':' :: rest =>
      let sgn := splitSign rest
      let ds := sgn.2
      if ds.isEmpty ∨ ¬ ds.all Char.isDigit then none
      else some (if sgn.1 then -(digitsToNat ds : Int) else (digitsToNat ds : Int))
  | _ => none

/-- Stand-in for the `new Date(string)` parser: accepts exactly the strings
`isoRender` produces (up to leading zeros), checks the TimeClip range, and
yields the time value; every other string is an invalid date. -/
def dateFromString (s : String) : Option Int :=
  match dateStringValue s with
  | some v => if v.natAbs ≤ 8640000000000000 then some v else none
  | none => none

mutual
/-- JS ToString on a value: the coercion `parseInt` / `parseFloat` and the
dateIso reader apply to their argument.  The Date case is the stand-in
`isoRender`-style tag: like the real locale date string it does not parse as
a number. -/
def jsToString : Value → String
  | .vnull => "null"
  | .undefined => "undefined"
  | .bool b => if b then "true" else "false"
  | .num q => ratToDecimal q
  | .str s => s
  | .arr xs => jsArrToString xs
  | .obj _ => "[object Object]"
  | .date ms => "Date(" ++ intToString ms ++ ")"

/-- JS Array.prototype.toString: elements joined with commas, null and
undefined elements rendering as the empty string. -/
def jsArrToString : ValueList → String
  | .nil => ""
  | .cons v rest =>
      let s :=
        match v with
        | .vnull => ""
        | .undefined => ""
        | w => jsToString w
      match rest with
      | .nil => s
      | .cons _ _ => s ++ "," ++ jsArrToString rest
end

/-! ### The schema grammar and the two interpreters -/

/-- Failure outcomes of a decode / encode call.  `parseError wanted got` is
the library's ParseError (src/index.ts, `parseError`); `typeError` is a
runtime TypeError from an unguarded JS operation (such as reading `.type`
off null, or calling `.getTime()` on a non-Date). -/
inductive JsError : Type where
  | parseError : String → Value → JsError
  | typeError : JsError
  deriving Repr, DecidableEq

instance : DecidableEq (Except JsError Value) := fun a b =>
  match a, b with
  | .ok x, .ok y => decidable_of_iff (x = y) (by simp)
  | .error e, .error f => decidable_of_iff (e = f) (by simp)
  | .ok _, .error _ => isFalse (by simp)
  | .error _, .ok _ => isFalse (by simp)

instance : DecidableEq (Except JsError ValueList) := fun a b =>
  match a, b with
  | .ok x, .ok y => decidable_of_iff (x = y) (by simp)
  | .error e, .error f => decidable_of_iff (e = f) (by simp)
  | .ok _, .error _ => isFalse (by simp)
  | .error _, .ok _ => isFalse (by simp)

instance : DecidableEq (Except JsError ValueFields) := fun a b =>
  match a, b with
  | .ok x, .ok y => decidable_of_iff (x = y) (by simp)
  | .error e, .error f => decidable_of_iff (e = f) (by simp)
  | .ok _, .error _ => isFalse (by simp)
  | .error _, .ok _ => isFalse (by simp)

/-- Effectful element-by-element map over a JS array (`xs.map(f)` where `f`
can fail). -/
def mapValueList (f : Value → Except JsError Value) : ValueList → Except JsError ValueList
  | .nil => .ok .nil
  | .cons x xs => do
      let y ← f x
      let ys ← mapValueList f xs
      .ok (.cons y ys)

mutual
/-- The schema grammar: one constructor per combinator exported by
src/index.ts.  TypeScript's signatures restrict `variant` payloads to
object-shaped schemas (`Obj<any>`, produced only by `obj` and `part_obj`),
so a variant branch carries a tag, a flag for `part_obj` (named
`partial_obj` in the source), and the payload's field definitions. -/
inductive Schema : Type where
  | str : Schema
  | bool : Schema
  | int : Schema
  | float : Schema
  | dateUnixSecs : Schema
  | dateUnixMillis : Schema
  | dateIso : Schema
  | nothing : Schema
  | raw : Schema
  | optional : Schema → Schema
  | nullable : Schema → Schema
  | array : Schema → Schema
  | obj : SchemaFields → Schema
  | part_obj : SchemaFields → Schema
  | tuple : SchemaList → Schema
  | oneOf : List String → Schema
  | variant : SchemaBranches → Schema
  deriving DecidableEq

inductive SchemaFields : Type where
  | nil : SchemaFields
  | cons : String → Schema → SchemaFields → SchemaFields
  deriving DecidableEq

inductive SchemaList : Type where
  | nil : SchemaList
  | cons : Schema → SchemaList → SchemaList
  deriving DecidableEq

inductive SchemaBranches : Type where
  | nil : SchemaBranches
  | cons : String → Bool → SchemaFields → SchemaBranches → SchemaBranches
  deriving DecidableEq
end

/-- Declared field names of an object schema, in declaration order
(`Object.keys(def)`). -/
def SchemaFields.keys : SchemaFields → List String
  | .nil => []
  | .cons k _ rest => k :: rest.keys

/-- Declared tags of a variant, in declaration order (`variantTypes`). -/
def SchemaBranches.tags : SchemaBranches → List String
  | .nil => []
  | .cons tag _ _ rest => tag :: rest.tags

/-- Number of declared tuple positions. -/
def SchemaList.length : SchemaList → Nat
  | .nil => 0
  | .cons _ rest => 1 + rest.length

/-- Position i of a schema list (callers stay in range). -/
def SchemaList.get : SchemaList → Nat → Schema
  | .nil, _ => .raw
  | .cons s _, 0 => s
  | .cons _ rest, n + 1 => rest.get n

/-- JSON.stringify of the declared tag array, as interpolated into the
variant mismatch message. -/
def tagsJson (tags : List String) : String :=
  "[" ++ String.intercalate "," (tags.map (fun t => "\"" ++ t ++ "\"")) ++ "]"

/-- The `${Object.keys(def)}` interpolation of the oneOf mismatch message
(JS array-to-string joins with commas). -/
def oneOfMsg (keys : List String) : String :=
  "one of " ++ String.intercalate "," keys

/-- Named property access `o[k]` as an effectful operation: a TypeError on
null/undefined, otherwise `Value.getProp`. -/
def getMember (o : Value) (k : String) : Except JsError Value :=
  match o with
  | .vnull => .error .typeError
  | .undefined => .error .typeError
  | _ => .ok (o.getProp k)

/-- Indexed access `r[i]` as an effectful operation: a TypeError on
null/undefined; arrays yield the element or undefined; strings yield the
one-character string at that position (JS string indexing); every other
value yields undefined. -/
def getIndex (r : Value) (i : Nat) : Except JsError Value :=
  match r with
  | .vnull => .error .typeError
  | .undefined => .error .typeError
  | .arr xs => .ok (xs.get i)
  | .str s =>
      .ok (if h : i < s.length then .str (String.mk [s.toList.get ⟨i, by simpa using h⟩]) else .undefined)
  | _ => .ok .undefined

mutual
/-- The decode direction: `read s o` is `S.read(o)` for the schema `s`
built by the corresponding combinator chain, translated clause by clause
from src/index.ts. -/
def read : Schema → Value → Except JsError Value
  | .str, o =>
      match o with
      | .str _ => .ok o
      | _ => .error (.parseError "string" o)
  | .bool, o =>
      match o with
      | .bool _ => .ok o
      | _ => .error (.parseError "boolean" o)
  | .int, o =>
      match parseIntJS (jsToString o) with
      | some i => .ok (.num (ratOfInt i))
      | none => .error (.parseError "integer" o)
  | .float, o =>
      match parseFloatJS (jsToString o) with
      | some q => .ok (.num q)
      | none => .error (.parseError "float" o)
  | .dateUnixSecs, o =>
      match parseFloatJS (jsToString o) with
      | some q =>
          match timeClip (mulPow10 q 3) with
          | some ms => .ok (.date ms)
          | none => .error (.parseError "dateUnixSecs" o)
      | none => .error (.parseError "dateUnixSecs" o)
  | .dateUnixMillis, o =>
      match parseFloatJS (jsToString o) with
      | some q =>
          match timeClip q with
          | some ms => .ok (.date ms)
          | none => .error (.parseError "dateUnixMillis" o)
      | none => .error (.parseError "dateUnixMillis" o)
  | .dateIso, o =>
      match dateFromString (if o.truthy then jsToString o else "") with
      | some ms => .ok (.date ms)
      | none => .error (.parseError "dateIso" o)
  | .nothing, _ => .ok .undefined
  | .raw, o => .ok o
  | .optional s, o => if o.nullish then .ok .undefined else read s o
  | .nullable s, o => if o.nullish then .ok .vnull else read s o
  | .array s, o =>
      match o with
      | .arr xs => (mapValueList (fun v => read s v) xs).map .arr
      | _ => .error (.parseError "array" o)
  | .obj fs, o => (readFields fs o).map .obj
  | .part_obj fs, o => (readPartFields fs o).map .obj
  | .tuple ts, o =>
      match o with
      | .arr xs => (readTuple ts xs).map .arr
      | _ => .error (.parseError "an array" o)
  | .oneOf keys, o =>
      match o with
      | .str s => if keys.contains s then .ok o else .error (.parseError (oneOfMsg keys) o)
      | _ => .error (.parseError (oneOfMsg keys) o)
  | .variant bs, o => do
      let tg ← getMember o "type"
      readBranches (.parseError ("type in " ++ tagsJson bs.tags) o) bs tg o
termination_by structural s _ => s

/-- The field loop of `obj`: for each declared key, check the object guard
(each iteration checks it afresh, so zero fields means zero checks), then
`out[key] = def[key].read(o[key])`.  `Object.keys` yields distinct keys, so
each assignment appends a fresh field. -/
def readFields : SchemaFields → Value → Except JsError ValueFields
  | .nil, _ => .ok .nil
  | .cons k s rest, o =>
      if o.objLike then do
        let v ← read s (o.getProp k)
        let tl ← readFields rest o
        .ok (.cons k v tl)
      else .error (.parseError "an object" o)
termination_by structural fs _ => fs

/-- The field loop of `part_obj`: identical to `obj` except each field reads
through `optional(def[key])`; the body of `optional(s).read` is inlined here
(nullish input gives undefined, otherwise delegate) to keep the recursion
structural. -/
def readPartFields : SchemaFields → Value → Except JsError ValueFields
  | .nil, _ => .ok .nil
  | .cons k s rest, o =>
      if o.objLike then do
        let fv := o.getProp k
        let v ← if fv.nullish then .ok .undefined else read s fv
        let tl ← readPartFields rest o
        .ok (.cons k v tl)
      else .error (.parseError "an object" o)
termination_by structural fs _ => fs

/-- `def.map((d, i) => d.read(o[i]))` for tuple: positions walk with the
declared schemas; missing positions read undefined, extra input positions
are never visited. -/
def readTuple : SchemaList → ValueList → Except JsError ValueList
  | .nil, _ => .ok .nil
  | .cons s rest, xs => do
      let v ← read s (xs.get 0)
      let tl ← readTuple rest xs.tail
      .ok (.cons v tl)
termination_by structural ts _ => ts

/-- The `variantTypes.indexOf(o.type)` dispatch: walk the declared branches
in order, first tag strictly equal to the discriminant wins; the
precomputed mismatch error is thrown when none matches.  On a match the
whole input is decoded with the payload schema and the discriminant is
merged over the result (`{...payload.read(o), type: o.type}`). -/
def readBranches : JsError → SchemaBranches → Value → Value → Except JsError Value
  | err, .nil, _, _ => .error err
  | err, .cons tag isPart fields rest, tg, o =>
      if tg = .str tag then do
        let kvs ← if isPart then readPartFields fields o else readFields fields o
        .ok (.obj (kvs.set "type" tg))
      else readBranches err rest tg o
termination_by structural _ bs _ _ => bs

/-- The encode direction: `write s t` is `S.write(t)`, translated clause by
clause from src/index.ts, with the JS runtime errors of applying a writer
to a value outside its typed domain modelled as TypeErrors. -/
def write : Schema → Value → Except JsError Value
  | .str, t => .ok t
  | .bool, t => .ok t
  | .int, t => .ok t
  | .float, t => .ok t
  | .dateUnixSecs, t =>
      match t with
      | .date ms => .ok (.num (decRat ms 3))
      | _ => .error .typeError
  | .dateUnixMillis, t =>
      match t with
      | .date ms => .ok (.num (ratOfInt ms))
      | _ => .error .typeError
  | .dateIso, t =>
      match t with
      | .date ms => .ok (.str (isoRender ms))
      | _ => .error .typeError
  | .nothing, _ => .ok (.str "")
  | .raw, t => .ok t
  | .optional s, t => if t.nullish then .ok .vnull else write s t
  | .nullable s, t => if t.nullish then .ok .vnull else write s t
  | .array s, t =>
      match t with
      | .arr xs => (mapValueList (fun v => write s v) xs).map .arr
      | _ => .error .typeError
  | .obj fs, t => (writeFields fs t).map .obj
  | .part_obj fs, t => (writePartFields fs t).map .obj
  | .tuple ts, t => (writeTuple ts t 0).map .arr
  | .oneOf _, t => .ok t
  | .variant bs, t => do
      let tg ← getMember t "type"
      writeBranches bs tg t
termination_by structural s _ => s

/-- The field loop of `obj.write`: `out[key] = def[key].write(r[key])`. -/
def writeFields : SchemaFields → Value → Except JsError ValueFields
  | .nil, _ => .ok .nil
  | .cons k s rest, r => do
      let fv ← getMember r k
      let v ← write s fv
      let tl ← writeFields rest r
      .ok (.cons k v tl)
termination_by structural fs _ => fs

/-- The field loop of `part_obj.write`: each field writes through
`optional(def[key])`, inlined as with `readPartFields`. -/
def writePartFields : SchemaFields → Value → Except JsError ValueFields
  | .nil, _ => .ok .nil
  | .cons k s rest, r => do
      let fv ← getMember r k
      let v ← if fv.nullish then .ok .vnull else write s fv
      let tl ← writePartFields rest r
      .ok (.cons k v tl)
termination_by structural fs _ => fs

/-- `def.map((d, i) => d.write(r[i]))` for tuple: the declared schemas walk
with an index into the typed value, whatever shape it has (JS indexing into
a non-array yields undefined, or a TypeError on null/undefined). -/
def writeTuple : SchemaList → Value → Nat → Except JsError ValueList
  | .nil, _, _ => .ok .nil
  | .cons s rest, r, i => do
      let xv ← getIndex r i
      let v ← write s xv
      let tl ← writeTuple rest r (i + 1)
      .ok (.cons v tl)
termination_by structural ts _ _ => ts

/-- Variant encode: find the first branch whose tag equals `t.type`; when
none matches the source indexes the serializer array at -1 and calling
`.write` on the resulting undefined raises a TypeError.  On a match the
payload write is merged with `type: t.type`. -/
def writeBranches : SchemaBranches → Value → Value → Except JsError Value
  | .nil, _, _ => .error .typeError
  | .cons tag isPart fields rest, tg, t =>
      if tg = .str tag then do
        let kvs ← if isPart then writePartFields fields t else writeFields fields t
        .ok (.obj (kvs.set "type" tg))
      else writeBranches rest tg t
termination_by structural bs _ _ => bs
end

/-! ### Structural predicates on schemas and values -/

mutual
/-- Well-formedness of a schema as TypeScript accepts it: every object
literal has pairwise-distinct keys (a duplicate key cannot survive a JS
object literal), and no variant payload declares a field named `type` (the
spec: the discriminant "is not itself declared inside any schemaI, it is
attached at the union level"). -/
def Schema.wf : Schema → Bool
  | .optional s => s.wf
  | .nullable s => s.wf
  | .array s => s.wf
  | .obj fs => decide fs.keys.Nodup && SchemaFields.wf fs
  | .part_obj fs => decide fs.keys.Nodup && SchemaFields.wf fs
  | .tuple ts => SchemaList.wf ts
  | .variant bs => SchemaBranches.wf bs
  | _ => true
termination_by structural s => s

/-- Well-formedness of every schema in a field definition list. -/
def SchemaFields.wf : SchemaFields → Bool
  | .nil => true
  | .cons _ s rest => s.wf && SchemaFields.wf rest
termination_by structural fs => fs

/-- Well-formedness of every schema in a tuple definition. -/
def SchemaList.wf : SchemaList → Bool
  | .nil => true
  | .cons s rest => s.wf && SchemaList.wf rest
termination_by structural ts => ts

/-- Well-formedness of variant branches: each payload has distinct keys,
none of them `type`, and well-formed field schemas. -/
def SchemaBranches.wf : SchemaBranches → Bool
  | .nil => true
  | .cons _ _ fields rest =>
      decide fields.keys.Nodup && !(fields.keys.contains "type") &&
        SchemaFields.wf fields && SchemaBranches.wf rest
termination_by structural bs => bs
end

mutual
/-- Does the schema avoid the `variant` combinator everywhere? -/
def Schema.variantFree : Schema → Bool
  | .optional s => s.variantFree
  | .nullable s => s.variantFree
  | .array s => s.variantFree
  | .obj fs => SchemaFields.variantFree fs
  | .part_obj fs => SchemaFields.variantFree fs
  | .tuple ts => SchemaList.variantFree ts
  | .variant _ => false
  | _ => true
termination_by structural s => s

/-- variant-freedom of a field definition list. -/
def SchemaFields.variantFree : SchemaFields → Bool
  | .nil => true
  | .cons _ s rest => s.variantFree && SchemaFields.variantFree rest
termination_by structural fs => fs

/-- variant-freedom of a tuple definition. -/
def SchemaList.variantFree : SchemaList → Bool
  | .nil => true
  | .cons s rest => s.variantFree && SchemaList.variantFree rest
termination_by structural ts => ts
end

mutual
/-- Does the schema avoid the leaves whose read or write converts between
numbers and strings through the JS host: int, float, dateUnixSecs and
dateUnixMillis?  JS renders |x| ≥ 1e21 in exponential notation and parseInt
and parseFloat round to IEEE-754 doubles, while this development models
numbers as exact rationals printed in plain decimal, so round-trip
statements are only asserted away from those leaves.  dateIso stays in: its
write renders an ISO string whose re-parse recovers the clipped millisecond
value exactly, in the library as in this model. -/
def Schema.numFree : Schema → Bool
  | .int => false
  | .float => false
  | .dateUnixSecs => false
  | .dateUnixMillis => false
  | .optional s => s.numFree
  | .nullable s => s.numFree
  | .array s => s.numFree
  | .obj fs => SchemaFields.numFree fs
  | .part_obj fs => SchemaFields.numFree fs
  | .tuple ts => SchemaList.numFree ts
  | .variant bs => SchemaBranches.numFree bs
  | _ => true
termination_by structural s => s

/-- Number-conversion-freedom of a field definition list. -/
def SchemaFields.numFree : SchemaFields → Bool
  | .nil => true
  | .cons _ s rest => s.numFree && SchemaFields.numFree rest
termination_by structural fs => fs

/-- Number-conversion-freedom of a tuple definition. -/
def SchemaList.numFree : SchemaList → Bool
  | .nil => true
  | .cons s rest => s.numFree && SchemaList.numFree rest
termination_by structural ts => ts

/-- Number-conversion-freedom of variant branches. -/
def SchemaBranches.numFree : SchemaBranches → Bool
  | .nil => true
  | .cons _ _ fields rest => SchemaFields.numFree fields && SchemaBranches.numFree rest
termination_by structural bs => bs
end

mutual
/-- Observational equality of JS values up to identifying the two nullish
values null and undefined (the library's "absent sentinel": the spec
collapses missing key and explicit null into one concept). -/
def Value.approx : Value → Value → Bool
  | .vnull, b => b.nullish
  | .undefined, b => b.nullish
  | .bool a, .bool b => decide (a = b)
  | .num a, .num b => decide (a = b)
  | .str a, .str b => decide (a = b)
  | .date a, .date b => decide (a = b)
  | .arr xs, .arr ys => ValueList.approx xs ys
  | .obj fs, .obj gs => ValueFields.approx fs gs
  | _, _ => false
termination_by structural a => a

/-- Pointwise `Value.approx` on arrays of equal length. -/
def ValueList.approx : ValueList → ValueList → Bool
  | .nil, .nil => true
  | .cons v vs, .cons w ws => v.approx w && ValueList.approx vs ws
  | _, _ => false
termination_by structural xs => xs

/-- Pointwise `Value.approx` on field lists with equal keys in order. -/
def ValueFields.approx : ValueFields → ValueFields → Bool
  | .nil, .nil => true
  | .cons k v vs, .cons l w ws => decide (k = l) && v.approx w && ValueFields.approx vs ws
  | _, _ => false
termination_by structural fs => fs
end

mutual
/-- `approx` is reflexive. -/
theorem Value.approx_refl (v : Value) : v.approx v = true := by
  cases v <;> simp [Value.approx, Value.nullish]
  · exact ValueList.approxL_refl _
  · exact ValueFields.approxF_refl _
termination_by structural v

/-- `approx` is reflexive on value lists. -/
theorem ValueList.approxL_refl (xs : ValueList) : ValueList.approx xs xs = true := by
  cases xs with
  | nil => rfl
  | cons v rest => simp [ValueList.approx, Value.approx_refl v, ValueList.approxL_refl rest]
termination_by structural xs

/-- `approx` is reflexive on field lists. -/
theorem ValueFields.approxF_refl (fs : ValueFields) : ValueFields.approx fs fs = true := by
  cases fs with
  | nil => rfl
  | cons k v rest =>
      simp [ValueFields.approx, Value.approx_refl v, ValueFields.approxF_refl rest]
termination_by structural fs
end

/-- First declared branch with the given tag (the
`variantTypes.indexOf(tag)` selection): its `part_obj` flag and payload
fields. -/
def findBranch : SchemaBranches → String → Option (Bool × SchemaFields)
  | .nil, _ => none
  | .cons tag isPart fields rest, tg =>
      if tag = tg then some (isPart, fields) else findBranch rest tg

/-- Append of value lists (statements about ignored tuple positions). -/
def ValueList.append : ValueList → ValueList → ValueList
  | .nil, ws => ws
  | .cons v vs, ws => .cons v (vs.append ws)

/-- The specification's reading of the `obj` field loop: decode every
declared field name in declaration order as `def[name].read(o[name])`
(an absent key reading undefined), the first failing field aborting the
whole call with its error.  Stated independently of the implementation's
per-field object guard; the C5 theorem relates the two. -/
def seqFieldReads : SchemaFields → Value → Except JsError ValueFields
  | .nil, _ => .ok .nil
  | .cons k s rest, o => do
      let v ← read s (o.getProp k)
      let tl ← seqFieldReads rest o
      .ok (.cons k v tl)

/-! ### The claims -/

/-- C3: numeric leniency.  `int.read` parses as much leading numeric text as
possible: `int.read("42abc")` yields 42 and `int.read("abc")` fails with
expected-kind "integer"; `float.read` parses floats the same way
(`float.read("42.5abc")` yields 42.5) and fails with expected-kind "float"
when the parse yields not-a-number. -/
theorem c3_numeric_leniency :
    read .int (.str "42abc") = .ok (.num (ratOfInt 42)) ∧
    ratOfInt 42 = (42 : Rat) ∧
    read .int (.str "abc") = .error (.parseError "integer" (.str "abc")) ∧
    read .float (.str "42.5abc") = .ok (.num (decRat 425 1)) ∧
    decRat 425 1 = (42.5 : Rat) ∧
    read .float (.str "abc") = .error (.parseError "float" (.str "abc")) := by
  refine ⟨by decide, by decide, by decide, by decide, ?_, by decide⟩
  show Rat.divInt 425 ((10 : Int) ^ 1) = (42.5 : Rat)
  norm_num [Rat.divInt_eq_div]

/-- C8: scalar rejection.  `str.read` is the identity on strings and fails
with expected-kind "string" on every non-string input (in particular 42,
true, null and the empty array); `bool.read` is the identity on booleans and
fails on the string "true". -/
theorem c8_scalar_rejection :
    (∀ s : String, read .str (.str s) = .ok (.str s)) ∧
    (∀ v : Value, (∀ s, v ≠ .str s) → read .str v = .error (.parseError "string" v)) ∧
    (∀ b : Bool, read .bool (.bool b) = .ok (.bool b)) ∧
    (∀ v : Value, (∀ b, v ≠ .bool b) → read .bool v = .error (.parseError "boolean" v)) ∧
    read .str (.num (ratOfInt 42)) = .error (.parseError "string" (.num (ratOfInt 42))) ∧
    read .str (.bool true) = .error (.parseError "string" (.bool true)) ∧
    read .str .vnull = .error (.parseError "string" .vnull) ∧
    read .str (.arr .nil) = .error (.parseError "string" (.arr .nil)) ∧
    read .bool (.str "true") = .error (.parseError "boolean" (.str "true")) := by
  refine ⟨fun s => rfl, fun v hv => ?_, fun b => rfl, fun v hv => ?_,
    by decide, by decide, by decide, by decide, by decide⟩
  · cases v with
    | str s => exact absurd rfl (hv s)
    | _ => rfl
  · cases v with
    | bool b => exact absurd rfl (hv b)
    | _ => rfl

/-- Witness for C8 at concrete inputs: the hypotheses of the general
conjuncts are discharged at 42 and at the string "x". -/
theorem c8_scalar_rejection_witness :
    read .str (.num (ratOfInt 42)) = .error (.parseError "string" (.num (ratOfInt 42))) ∧
    read .bool (.str "x") = .error (.parseError "boolean" (.str "x")) :=
  ⟨c8_scalar_rejection.2.1 (.num (ratOfInt 42)) (fun _ h => Value.noConfusion h),
   c8_scalar_rejection.2.2.2.1 (.str "x") (fun _ h => Value.noConfusion h)⟩

/-- C9 (implicit): with an empty field definition the object guard is never
executed, so `obj({}).read` and `partial_obj({}).read` succeed on every
untyped input — null, scalars, arrays included — returning the empty
record. -/
theorem c9_empty_obj (v : Value) :
    read (.obj .nil) v = .ok (.obj .nil) ∧
    read (.part_obj .nil) v = .ok (.obj .nil) :=
  ⟨rfl, rfl⟩

/-- C7: optional/nullable absence collapse.  `optional(S).read` sends any
nullish input (null or undefined alike) to the absent sentinel undefined and
delegates otherwise; its write sends any nullish typed value (the sentinel)
to null and delegates otherwise.  `nullable(S)` is identical except the
sentinel `read` produces is null. -/
theorem c7_optional_nullable (s : Schema) (v t : Value) :
    (v.nullish = true → read (.optional s) v = .ok .undefined) ∧
    (v.nullish = false → read (.optional s) v = read s v) ∧
    write (.optional s) .undefined = .ok .vnull ∧
    (t.nullish = false → write (.optional s) t = write s t) ∧
    (v.nullish = true → read (.nullable s) v = .ok .vnull) ∧
    (v.nullish = false → read (.nullable s) v = read s v) ∧
    write (.nullable s) .undefined = .ok .vnull ∧
    (t.nullish = false → write (.nullable s) t = write s t) := by
  refine ⟨fun h => ?_, fun h => ?_, rfl, fun h => ?_, fun h => ?_, fun h => ?_, rfl, fun h => ?_⟩
  all_goals simp [read, write, h]

/-- Witness for C7 at `string`, null input and the typed value "x". -/
theorem c7_optional_nullable_witness :
    read (.optional .str) .vnull = .ok .undefined ∧
    read (.optional .str) (.str "x") = read .str (.str "x") ∧
    write (.optional .str) (.str "x") = write .str (.str "x") ∧
    read (.nullable .str) .vnull = .ok .vnull :=
  ⟨(c7_optional_nullable .str .vnull (.str "x")).1 rfl,
   (c7_optional_nullable .str (.str "x") (.str "x")).2.1 rfl,
   (c7_optional_nullable .str .vnull (.str "x")).2.2.2.1 rfl,
   (c7_optional_nullable .str .vnull (.str "x")).2.2.2.2.1 rfl⟩

end SafePortals

namespace SafePortals

/-! ### Small bridging lemmas -/

@[simp] theorem exceptBind_ok {α β γ : Type} (a : α) (f : α → Except γ β) :
    (Except.ok a : Except γ α) >>= f = f a := rfl

@[simp] theorem exceptBind_error {α β γ : Type} (e : γ) (f : α → Except γ β) :
    (Except.error e : Except γ α) >>= f = Except.error e := rfl

@[simp] theorem exceptMap_ok {α β γ : Type} (g : α → β) (a : α) :
    (Except.ok a : Except γ α).map g = Except.ok (g a) := rfl

@[simp] theorem exceptMap_error {α β γ : Type} (g : α → β) (e : γ) :
    (Except.error e : Except γ α).map g = Except.error e := rfl

/-- Looking up the key just set yields the value just set (the merged
discriminant wins over any payload field of the same name). -/
theorem ValueFields.lookup_set_self (fs : ValueFields) (k : String) (v : Value) :
    (fs.set k v).lookup k = v := by
  cases fs with
  | nil => simp [ValueFields.set, ValueFields.lookup]
  | cons k2 w rest =>
      by_cases h : k2 = k
      · simp [ValueFields.set, ValueFields.lookup, h]
      · simp [ValueFields.set, ValueFields.lookup, h, rest.lookup_set_self k v]
termination_by structural fs

/-- Setting one key leaves every other key's lookup unchanged. -/
theorem ValueFields.lookup_set_ne (fs : ValueFields) (k k2 : String) (v : Value)
    (h : k ≠ k2) : (fs.set k v).lookup k2 = fs.lookup k2 := by
  cases fs with
  | nil => simp [ValueFields.set, ValueFields.lookup, h]
  | cons k3 w rest =>
      by_cases h3 : k3 = k
      · subst h3
        simp [ValueFields.set, ValueFields.lookup, h]
      · simp only [ValueFields.set, ValueFields.lookup, if_neg h3]
        by_cases h2 : k3 = k2
        · simp [h2]
        · simp [h2, rest.lookup_set_ne k k2 v h]
termination_by structural fs

/-- Setting an absent key appends it. -/
theorem ValueFields.set_absent (fs : ValueFields) (k : String) (v : Value)
    (h : fs.keys.contains k = false) :
    fs.set k v = fs.append (.cons k v .nil) := by
  cases fs with
  | nil => rfl
  | cons k2 w rest =>
      simp only [ValueFields.keys, List.contains_cons, Bool.or_eq_false_iff] at h
      have hne : ¬ (k2 = k) := by
        intro hk
        subst hk
        simp at h
      simp [ValueFields.set, ValueFields.append, hne,
        rest.set_absent k v (by simpa using h.2)]
termination_by structural fs

/-! ### C5: the obj field loop -/

/-- Behind a passing object guard the implementation's field loop is the
sequential per-field read of the specification. -/
theorem readFields_eq_seq (fs : SchemaFields) (o : Value) (h : o.objLike = true) :
    readFields fs o = seqFieldReads fs o := by
  cases fs with
  | nil => rfl
  | cons k s rest => simp [readFields, seqFieldReads, h, readFields_eq_seq rest o h]
termination_by structural fs

/-- C5: obj decode.  On a non-array mapping input, `obj(def).read` decodes
every declared field in declaration order as `def[name].read(input[name])`
(absent keys read undefined) with the first failing field aborting the call
with its error — the sequential reader `seqFieldReads`; on any other input
it fails with "expected an object" as soon as there is at least one declared
field. -/
theorem c5_obj_decode (fs : SchemaFields) (o : Value) :
    (o.objLike = true → read (.obj fs) o = (seqFieldReads fs o).map Value.obj) ∧
    (o.objLike = false → fs ≠ .nil →
      read (.obj fs) o = .error (.parseError "an object" o)) := by
  constructor
  · intro h
    show (readFields fs o).map Value.obj = _
    rw [readFields_eq_seq fs o h]
  · intro h hne
    cases fs with
    | nil => exact absurd rfl hne
    | cons k s rest =>
        show (readFields (.cons k s rest) o).map Value.obj = _
        simp [readFields, h]

/-- Witness for C5: the spec's two examples.  Field `b` of
`obj({a: string, b: integer})` fails with expected-kind "integer" on
`{a: "x", b: "notanumber"}`, and `obj({a: string})` rejects an array with
"expected an object". -/
theorem c5_obj_decode_witness :
    read (.obj (.cons "a" .str (.cons "b" .int .nil)))
        (.obj (.cons "a" (.str "x") (.cons "b" (.str "notanumber") .nil)))
      = .error (.parseError "integer" (.str "notanumber")) ∧
    read (.obj (.cons "a" .str .nil))
        (.arr (.cons (.num (ratOfInt 1)) (.cons (.num (ratOfInt 2)) .nil)))
      = .error (.parseError "an object"
          (.arr (.cons (.num (ratOfInt 1)) (.cons (.num (ratOfInt 2)) .nil)))) :=
  ⟨((c5_obj_decode (.cons "a" .str (.cons "b" .int .nil))
      (.obj (.cons "a" (.str "x") (.cons "b" (.str "notanumber") .nil)))).1 rfl).trans
      (by decide),
   (c5_obj_decode (.cons "a" .str .nil)
      (.arr (.cons (.num (ratOfInt 1)) (.cons (.num (ratOfInt 2)) .nil)))).2 rfl
      (fun h => SchemaFields.noConfusion h)⟩

end SafePortals

namespace SafePortals

@[simp] theorem exceptBind_pure_eq_map {α β γ : Type} (x : Except γ α) (g : α → β) :
    (x >>= fun a => Except.ok (g a)) = x.map g := by cases x <;> rfl

/-! ### C4 and C10: variant dispatch -/

/-- No branch carries the tag iff the tag is not among the declared tags. -/
theorem findBranch_none_iff (bs : SchemaBranches) (tg : String) :
    findBranch bs tg = none ↔ bs.tags.contains tg = false := by
  cases bs with
  | nil => simp [findBranch, SchemaBranches.tags]
  | cons tag isPart fields rest =>
      by_cases h : tag = tg
      · simp [findBranch, SchemaBranches.tags, h]
      · simp [findBranch, SchemaBranches.tags, h, findBranch_none_iff rest tg,
          List.contains_cons, Ne.symm h]
termination_by structural bs

/-- The branch walk of variant decode: the first branch whose tag equals the
string discriminant wins; with no match the precomputed error is thrown. -/
theorem readBranches_spec (err : JsError) (bs : SchemaBranches) (tg : String) (o : Value) :
    readBranches err bs (.str tg) o =
      match findBranch bs tg with
      | none => .error err
      | some (isPart, fields) =>
          (if isPart then readPartFields fields o else readFields fields o).map
            (fun pkvs => Value.obj (pkvs.set "type" (.str tg))) := by
  cases bs with
  | nil => rfl
  | cons tag isPart fields rest =>
      by_cases h : tag = tg
      · subst h
        cases isPart <;> simp [readBranches, findBranch]
      · have h2 : ¬ (Value.str tg = Value.str tag) := by simp [Ne.symm h]
        simp [readBranches, findBranch, h, h2, readBranches_spec err rest tg o]
termination_by structural bs

/-- The branch walk of variant encode, mirror of `readBranches_spec`; with
no match the source indexes the serializer array at -1 and the call on the
resulting undefined raises a TypeError. -/
theorem writeBranches_spec (bs : SchemaBranches) (tg : String) (t : Value) :
    writeBranches bs (.str tg) t =
      match findBranch bs tg with
      | none => .error .typeError
      | some (isPart, fields) =>
          (if isPart then writePartFields fields t else writeFields fields t).map
            (fun kvs => Value.obj (kvs.set "type" (.str tg))) := by
  cases bs with
  | nil => rfl
  | cons tag isPart fields rest =>
      by_cases h : tag = tg
      · subst h
        cases isPart <;> simp [writeBranches, findBranch]
      · have h2 : ¬ (Value.str tg = Value.str tag) := by simp [Ne.symm h]
        simp [writeBranches, findBranch, h, h2, writeBranches_spec rest tg t]
termination_by structural bs

/-- Variant decode on a matched tag, in closed form: payload read of the
whole input, then the discriminant merged over the result. -/
theorem readVariant_found (bs : SchemaBranches) (kvs : ValueFields) (tg : String)
    (isPart : Bool) (fields : SchemaFields)
    (hty : kvs.lookup "type" = .str tg)
    (hfind : findBranch bs tg = some (isPart, fields)) :
    read (.variant bs) (.obj kvs) =
      ((if isPart then readPartFields fields (.obj kvs)
        else readFields fields (.obj kvs)).map
          (fun pkvs => Value.obj (pkvs.set "type" (.str tg)))) := by
  have hread : read (.variant bs) (.obj kvs) =
      readBranches (.parseError ("type in " ++ tagsJson bs.tags) (.obj kvs)) bs
        (.str tg) (.obj kvs) := by
    simp [read, getMember, Value.getProp, hty]
  rw [hread, readBranches_spec, hfind]

/-- Variant encode on a matched tag, in closed form. -/
theorem writeVariant_found (bs : SchemaBranches) (kvs : ValueFields) (tg : String)
    (isPart : Bool) (fields : SchemaFields)
    (hty : kvs.lookup "type" = .str tg)
    (hfind : findBranch bs tg = some (isPart, fields)) :
    write (.variant bs) (.obj kvs) =
      ((if isPart then writePartFields fields (.obj kvs)
        else writeFields fields (.obj kvs)).map
          (fun wkvs => Value.obj (wkvs.set "type" (.str tg)))) := by
  have hwrite : write (.variant bs) (.obj kvs) =
      writeBranches bs (.str tg) (.obj kvs) := by
    simp [write, getMember, Value.getProp, hty]
  rw [hwrite, writeBranches_spec, hfind]

/-- C4: variant dispatch.  For an input mapping whose `type` field is the
string tg: if tg matches no declared tag (equivalently `findBranch` finds
nothing), decode fails with "type in {declared tags}"; otherwise the first
declared branch with that tag (declaration order) decodes the whole input
with its payload schema and the result is merged with `type: input.type`. -/
theorem c4_variant_dispatch (bs : SchemaBranches) (kvs : ValueFields) (tg : String)
    (hty : kvs.lookup "type" = .str tg) :
    (findBranch bs tg = none ↔ bs.tags.contains tg = false) ∧
    (findBranch bs tg = none →
      read (.variant bs) (.obj kvs) =
        .error (.parseError ("type in " ++ tagsJson bs.tags) (.obj kvs))) ∧
    (∀ isPart fields, findBranch bs tg = some (isPart, fields) →
      read (.variant bs) (.obj kvs) =
        ((if isPart then readPartFields fields (.obj kvs)
          else readFields fields (.obj kvs)).map
            (fun pkvs => Value.obj (pkvs.set "type" (.str tg))))) := by
  have hread : read (.variant bs) (.obj kvs) =
      readBranches (.parseError ("type in " ++ tagsJson bs.tags) (.obj kvs)) bs
        (.str tg) (.obj kvs) := by
    simp [read, getMember, Value.getProp, hty]
  refine ⟨findBranch_none_iff bs tg, fun hnone => ?_, fun isPart fields hsome => ?_⟩
  · rw [hread, readBranches_spec, hnone]
  · exact readVariant_found bs kvs tg isPart fields hty hsome

/-- Witness for C4: the spec's union example.  Decoding
`{type:"add", amount:3}` against `variant("add", obj({amount: integer}),
"remove", obj({amount: integer}))` yields `{amount:3, type:"add"}`;
decoding `{type:"multiply", amount:3}` fails with the declared-tags
message. -/
theorem c4_variant_dispatch_witness :
    read (.variant (.cons "add" false (.cons "amount" .int .nil)
        (.cons "remove" false (.cons "amount" .int .nil) .nil)))
      (.obj (.cons "type" (.str "add") (.cons "amount" (.num (ratOfInt 3)) .nil)))
      = .ok (.obj (.cons "amount" (.num (ratOfInt 3)) (.cons "type" (.str "add") .nil))) ∧
    read (.variant (.cons "add" false (.cons "amount" .int .nil)
        (.cons "remove" false (.cons "amount" .int .nil) .nil)))
      (.obj (.cons "type" (.str "multiply") (.cons "amount" (.num (ratOfInt 3)) .nil)))
      = .error (.parseError ("type in " ++ tagsJson ["add", "remove"])
          (.obj (.cons "type" (.str "multiply") (.cons "amount" (.num (ratOfInt 3)) .nil)))) :=
  ⟨((c4_variant_dispatch
      (.cons "add" false (.cons "amount" .int .nil)
        (.cons "remove" false (.cons "amount" .int .nil) .nil))
      (.cons "type" (.str "add") (.cons "amount" (.num (ratOfInt 3)) .nil))
      "add" (by decide)).2.2 false (.cons "amount" .int .nil) (by decide)).trans (by decide),
   ((c4_variant_dispatch
      (.cons "add" false (.cons "amount" .int .nil)
        (.cons "remove" false (.cons "amount" .int .nil) .nil))
      (.cons "type" (.str "multiply") (.cons "amount" (.num (ratOfInt 3)) .nil))
      "multiply" (by decide)).2.1 (by decide)).trans (by decide)⟩

/-- C10 (implicit): the union-level discriminant, merged after the payload
spread, always wins: when decode matches a branch, the result's `type` field
equals the input's `type` field even if the payload schema itself declares
and decodes a field named `type`; symmetrically the encoded value carries
`type = value.type` over whatever the payload write produced. -/
theorem c10_variant_type_overwrite (bs : SchemaBranches) (kvs pkvs wkvs : ValueFields)
    (tg : String) (isPart : Bool) (fields : SchemaFields)
    (hty : kvs.lookup "type" = .str tg)
    (hfind : findBranch bs tg = some (isPart, fields)) :
    ((if isPart then readPartFields fields (.obj kvs)
        else readFields fields (.obj kvs)) = .ok pkvs →
      read (.variant bs) (.obj kvs) = .ok (.obj (pkvs.set "type" (.str tg))) ∧
      (pkvs.set "type" (.str tg)).lookup "type" = .str tg) ∧
    ((if isPart then writePartFields fields (.obj kvs)
        else writeFields fields (.obj kvs)) = .ok wkvs →
      write (.variant bs) (.obj kvs) = .ok (.obj (wkvs.set "type" (.str tg))) ∧
      (wkvs.set "type" (.str tg)).lookup "type" = .str tg) := by
  constructor
  · intro hpay
    refine ⟨?_, ValueFields.lookup_set_self pkvs "type" (.str tg)⟩
    rw [readVariant_found bs kvs tg isPart fields hty hfind, hpay]
    rfl
  · intro hpay
    refine ⟨?_, ValueFields.lookup_set_self wkvs "type" (.str tg)⟩
    rw [writeVariant_found bs kvs tg isPart fields hty hfind, hpay]
    rfl

/-- Witness for C10: a payload that itself declares `type` (as an integer
field) under the tag "5".  Decoding `{type:"5"}` succeeds and the result's
`type` is still the string "5" (the payload's decoded 5 is overwritten);
encoding it back also carries `type:"5"`. -/
theorem c10_variant_type_overwrite_witness :
    read (.variant (.cons "5" false (.cons "type" .int .nil) .nil))
      (.obj (.cons "type" (.str "5") .nil))
      = .ok (.obj (.cons "type" (.str "5") .nil)) ∧
    write (.variant (.cons "5" false (.cons "type" .int .nil) .nil))
      (.obj (.cons "type" (.str "5") .nil))
      = .ok (.obj (.cons "type" (.str "5") .nil)) :=
  ⟨(((c10_variant_type_overwrite (.cons "5" false (.cons "type" .int .nil) .nil)
      (.cons "type" (.str "5") .nil)
      (.cons "type" (.num (ratOfInt 5)) .nil)
      (.cons "type" (.str "5") .nil)
      "5" false (.cons "type" .int .nil) (by decide) (by decide)).1 (by decide)).1).trans
      (by decide),
   (((c10_variant_type_overwrite (.cons "5" false (.cons "type" .int .nil) .nil)
      (.cons "type" (.str "5") .nil)
      (.cons "type" (.num (ratOfInt 5)) .nil)
      (.cons "type" (.str "5") .nil)
      "5" false (.cons "type" .int .nil) (by decide) (by decide)).2 (by decide)).1).trans
      (by decide)⟩

end SafePortals


namespace SafePortals

/-! ### C6: tuple arity -/

/-- Extract the inner list from a successful `.map Value.arr`. -/
theorem map_arr_ok (x : Except JsError ValueList) (us : ValueList)
    (h : x.map Value.arr = .ok (.arr us)) : x = .ok us := by
  cases x with
  | error e => exact absurd h (by simp)
  | ok ys =>
      simp only [exceptMap_ok, Except.ok.injEq, Value.arr.injEq] at h
      rw [h]

/-- Extract the inner field list from a successful `.map Value.obj`. -/
theorem map_obj_ok (x : Except JsError ValueFields) (us : ValueFields)
    (h : x.map Value.obj = .ok (.obj us)) : x = .ok us := by
  cases x with
  | error e => exact absurd h (by simp)
  | ok ys =>
      simp only [exceptMap_ok, Except.ok.injEq, Value.obj.injEq] at h
      rw [h]

/-- Successful tuple reads, position by position: the output has exactly the
declared arity and position i is the result of reading input position i
(undefined past the input's end). -/
theorem readTuple_ok_spec (ts : SchemaList) (xs us : ValueList)
    (h : readTuple ts xs = .ok us) :
    us.length = ts.length ∧
      ∀ i, i < ts.length → read (ts.get i) (xs.get i) = .ok (us.get i) := by
  cases ts with
  | nil =>
      have h2 : (Except.ok ValueList.nil : Except JsError ValueList) = .ok us := h
      obtain rfl : ValueList.nil = us := Except.ok.inj h2
      exact ⟨rfl, fun i hi => absurd hi (by simp [SchemaList.length])⟩
  | cons s rest =>
      rw [readTuple.eq_def] at h
      simp only [] at h
      cases h0 : read s (xs.get 0) with
      | error e => rw [h0] at h; exact absurd h (by simp)
      | ok u0 =>
          rw [h0] at h
          simp only [exceptBind_ok] at h
          cases htl : readTuple rest xs.tail with
          | error e => rw [htl] at h; exact absurd h (by simp)
          | ok us2 =>
              rw [htl] at h
              simp only [exceptBind_ok, Except.ok.injEq] at h
              subst h
              obtain ⟨hlen, hpos⟩ := readTuple_ok_spec rest xs.tail us2 htl
              refine ⟨by simp [ValueList.length, SchemaList.length, hlen], fun i hi => ?_⟩
              cases i with
              | zero => simpa [SchemaList.get, ValueList.get] using h0
              | succ j =>
                  have hj : j < rest.length := by
                    simp [SchemaList.length] at hi
                    omega
                  have hp := hpos j hj
                  cases xs with
                  | nil => simpa [SchemaList.get, ValueList.get, ValueList.tail] using hp
                  | cons x xs2 =>
                      simpa [SchemaList.get, ValueList.get, ValueList.tail] using hp
termination_by structural ts

/-- Input positions beyond the declared arity are never visited. -/
theorem readTuple_ignores_extra (ts : SchemaList) (xs extra : ValueList)
    (h : ts.length ≤ xs.length) :
    readTuple ts (xs.append extra) = readTuple ts xs := by
  cases ts with
  | nil => rfl
  | cons s rest =>
      cases xs with
      | nil => simp [SchemaList.length, ValueList.length] at h
      | cons x xs2 =>
          have h2 : rest.length ≤ xs2.length := by
            simp [SchemaList.length, ValueList.length] at h
            omega
          rw [readTuple.eq_def, readTuple.eq_def]
          simp only [ValueList.append, ValueList.get, ValueList.tail]
          rw [readTuple_ignores_extra rest xs2 extra h2]
termination_by structural ts

/-- Successful tuple writes have exactly the declared arity, whatever the
typed value was. -/
theorem writeTuple_ok_length (ts : SchemaList) (r : Value) (i : Nat) (ws : ValueList)
    (h : writeTuple ts r i = .ok ws) : ws.length = ts.length := by
  cases ts with
  | nil =>
      have h2 : (Except.ok ValueList.nil : Except JsError ValueList) = .ok ws := h
      obtain rfl : ValueList.nil = ws := Except.ok.inj h2
      rfl
  | cons s rest =>
      rw [writeTuple.eq_def] at h
      simp only [] at h
      cases h0 : getIndex r i with
      | error e => rw [h0] at h; exact absurd h (by simp)
      | ok xv =>
          rw [h0] at h
          simp only [exceptBind_ok] at h
          cases h1 : write s xv with
          | error e => rw [h1] at h; exact absurd h (by simp)
          | ok v =>
              rw [h1] at h
              simp only [exceptBind_ok] at h
              cases htl : writeTuple rest r (i + 1) with
              | error e => rw [htl] at h; exact absurd h (by simp)
              | ok ws2 =>
                  rw [htl] at h
                  simp only [exceptBind_ok, Except.ok.injEq] at h
                  subst h
                  simp [ValueList.length, SchemaList.length,
                    writeTuple_ok_length rest r (i + 1) ws2 htl]
termination_by structural ts

/-- Successful tuple writes of an array value, position by position from
offset i. -/
theorem writeTuple_ok_spec (ts : SchemaList) (xs ws : ValueList) (i : Nat)
    (h : writeTuple ts (.arr xs) i = .ok ws) :
    ∀ j, j < ts.length → write (ts.get j) (xs.get (i + j)) = .ok (ws.get j) := by
  cases ts with
  | nil => exact fun j hj => absurd hj (by simp [SchemaList.length])
  | cons s rest =>
      rw [writeTuple.eq_def] at h
      simp only [getIndex, exceptBind_ok] at h
      cases h1 : write s (xs.get i) with
      | error e => rw [h1] at h; exact absurd h (by simp)
      | ok v =>
          rw [h1] at h
          simp only [exceptBind_ok] at h
          cases htl : writeTuple rest (.arr xs) (i + 1) with
          | error e => rw [htl] at h; exact absurd h (by simp)
          | ok ws2 =>
              rw [htl] at h
              simp only [exceptBind_ok, Except.ok.injEq] at h
              subst h
              intro j hj
              cases j with
              | zero => simpa [SchemaList.get, ValueList.get] using h1
              | succ j2 =>
                  have hj2 : j2 < rest.length := by
                    simp [SchemaList.length] at hj
                    omega
                  have hp := writeTuple_ok_spec rest xs ws2 (i + 1) htl j2 hj2
                  have harith : i + 1 + j2 = i + (j2 + 1) := by omega
                  rw [harith] at hp
                  simpa [SchemaList.get, ValueList.get] using hp
termination_by structural ts

/-- C6: tuple arity.  `tuple(S0,…,Sn).read` fails with "expected an array"
on any non-array input; a successful read of an array has exactly the
declared arity with position i read by Si from input position i (undefined
past a short input's end), and input positions beyond the declared arity
are ignored; a successful `tuple(...).write` always produces an array of
exactly the declared arity whose position i is `Si.write(value[i])`. -/
theorem c6_tuple (ts : SchemaList) :
    (∀ o : Value, (∀ xs, o ≠ .arr xs) →
      read (.tuple ts) o = .error (.parseError "an array" o)) ∧
    (∀ xs us : ValueList, read (.tuple ts) (.arr xs) = .ok (.arr us) →
      us.length = ts.length ∧
        ∀ i, i < ts.length → read (ts.get i) (xs.get i) = .ok (us.get i)) ∧
    (∀ xs extra : ValueList, ts.length ≤ xs.length →
      read (.tuple ts) (.arr (xs.append extra)) = read (.tuple ts) (.arr xs)) ∧
    (∀ r : Value, ∀ ws : ValueList, write (.tuple ts) r = .ok (.arr ws) →
      ws.length = ts.length) ∧
    (∀ xs ws : ValueList, write (.tuple ts) (.arr xs) = .ok (.arr ws) →
      ∀ i, i < ts.length → write (ts.get i) (xs.get i) = .ok (ws.get i)) := by
  refine ⟨fun o ho => ?_, fun xs us h => ?_, fun xs extra h => ?_,
    fun r ws h => ?_, fun xs ws h => ?_⟩
  · cases o with
    | arr xs => exact absurd rfl (ho xs)
    | _ => rfl
  · exact readTuple_ok_spec ts xs us (map_arr_ok _ us h)
  · show (readTuple ts (xs.append extra)).map Value.arr = (readTuple ts xs).map Value.arr
    rw [readTuple_ignores_extra ts xs extra h]
  · exact writeTuple_ok_length ts r 0 ws (map_arr_ok _ ws h)
  · intro i hi
    have hp := writeTuple_ok_spec ts xs ws 0 (map_arr_ok _ ws h) i hi
    simpa using hp

/-- Witness for C6 at `tuple(string, integer)`: the extra element of
`["x", 5, "extra"]` is ignored; a non-array input is rejected; the write of
`["x", 5]` puts `string.write("x")` at position 0. -/
theorem c6_tuple_witness :
    read (.tuple (.cons .str (.cons .int .nil)))
        (.arr ((ValueList.cons (.str "x") (.cons (.num (ratOfInt 5)) .nil)).append
          (.cons (.str "extra") .nil)))
      = read (.tuple (.cons .str (.cons .int .nil)))
          (.arr (.cons (.str "x") (.cons (.num (ratOfInt 5)) .nil))) ∧
    read (.tuple (.cons .str (.cons .int .nil))) (.num (ratOfInt 7))
      = .error (.parseError "an array" (.num (ratOfInt 7))) ∧
    write .str ((ValueList.cons (.str "x") (.cons (.num (ratOfInt 5)) .nil)).get 0)
      = .ok ((ValueList.cons (.str "x") (.cons (.num (ratOfInt 5)) .nil)).get 0) :=
  ⟨(c6_tuple (.cons .str (.cons .int .nil))).2.2.1
      (.cons (.str "x") (.cons (.num (ratOfInt 5)) .nil))
      (.cons (.str "extra") .nil) (by decide),
   (c6_tuple (.cons .str (.cons .int .nil))).1 (.num (ratOfInt 7))
      (fun xs h => Value.noConfusion h),
   by
    have hp := (c6_tuple (.cons .str (.cons .int .nil))).2.2.2.2
      (.cons (.str "x") (.cons (.num (ratOfInt 5)) .nil))
      (.cons (.str "x") (.cons (.num (ratOfInt 5)) .nil)) (by decide) 0 (by decide)
    simpa [SchemaList.get] using hp⟩

end SafePortals

namespace SafePortals

/-! ### C2: the failure kinds of decode -/

/-- A failed `.map` comes from a failure of the mapped computation. -/
theorem map_error {α β : Type} (x : Except JsError α) (g : α → β) (e : JsError)
    (h : x.map g = .error e) : x = .error e := by
  cases x with
  | ok a => exact absurd h (by simp)
  | error e2 => simpa using h

/-- Failures of an element-by-element map are failures of some element. -/
theorem mapValueList_error (f : Value → Except JsError Value)
    (hf : ∀ x e2, f x = .error e2 → ∃ w g, e2 = .parseError w g)
    (xs : ValueList) :
    ∀ (e : JsError), mapValueList f xs = .error e →
      ∃ w g, e = .parseError w g := by
  cases xs with
  | nil => intro e h; exact absurd h (by simp [mapValueList])
  | cons x xs2 =>
      intro e h
      rw [mapValueList] at h
      cases h0 : f x with
      | error e2 =>
          rw [h0] at h
          simp only [exceptBind_error, Except.error.injEq] at h
          subst h
          exact hf x e2 h0
      | ok y =>
          rw [h0] at h
          simp only [exceptBind_ok] at h
          cases htl : mapValueList f xs2 with
          | error e2 =>
              rw [htl] at h
              simp only [exceptBind_error, Except.error.injEq] at h
              subst h
              exact mapValueList_error f hf xs2 e2 htl
          | ok ys =>
              rw [htl] at h
              exact absurd h (by simp)
termination_by structural xs

mutual
/-- Every decode failure of a variant-free schema is a ParseError. -/
theorem readSafeAux (s : Schema) : ∀ (v : Value) (e : JsError),
    s.variantFree = true → read s v = .error e → ∃ w g, e = .parseError w g := by
  intro v e hvf herr
  cases s with
  | str =>
      cases v <;> simp only [read, Except.error.injEq] at herr <;>
        first
        | exact absurd herr (by simp)
        | exact ⟨_, _, herr.symm⟩
  | bool =>
      cases v <;> simp only [read, Except.error.injEq] at herr <;>
        first
        | exact absurd herr (by simp)
        | exact ⟨_, _, herr.symm⟩
  | int =>
      rw [read.eq_def] at herr
      simp only [] at herr
      cases hp : parseIntJS (jsToString v) with
      | none =>
          rw [hp] at herr
          simp only [Except.error.injEq] at herr
          exact ⟨_, _, herr.symm⟩
      | some i =>
          rw [hp] at herr
          exact absurd herr (by simp)
  | float =>
      rw [read.eq_def] at herr
      simp only [] at herr
      cases hp : parseFloatJS (jsToString v) with
      | none =>
          rw [hp] at herr
          simp only [Except.error.injEq] at herr
          exact ⟨_, _, herr.symm⟩
      | some q =>
          rw [hp] at herr
          exact absurd herr (by simp)
  | dateUnixSecs =>
      rw [read.eq_def] at herr
      simp only [] at herr
      cases hp : parseFloatJS (jsToString v) with
      | none =>
          rw [hp] at herr
          simp only [Except.error.injEq] at herr
          exact ⟨_, _, herr.symm⟩
      | some q =>
          rw [hp] at herr
          simp only [] at herr
          cases hc : timeClip (mulPow10 q 3) with
          | none =>
              rw [hc] at herr
              simp only [Except.error.injEq] at herr
              exact ⟨_, _, herr.symm⟩
          | some ms =>
              rw [hc] at herr
              exact absurd herr (by simp)
  | dateUnixMillis =>
      rw [read.eq_def] at herr
      simp only [] at herr
      cases hp : parseFloatJS (jsToString v) with
      | none =>
          rw [hp] at herr
          simp only [Except.error.injEq] at herr
          exact ⟨_, _, herr.symm⟩
      | some q =>
          rw [hp] at herr
          simp only [] at herr
          cases hc : timeClip q with
          | none =>
              rw [hc] at herr
              simp only [Except.error.injEq] at herr
              exact ⟨_, _, herr.symm⟩
          | some ms =>
              rw [hc] at herr
              exact absurd herr (by simp)
  | dateIso =>
      rw [read.eq_def] at herr
      simp only [] at herr
      cases hp : dateFromString (if v.truthy then jsToString v else "") with
      | none =>
          rw [hp] at herr
          simp only [Except.error.injEq] at herr
          exact ⟨_, _, herr.symm⟩
      | some ms =>
          rw [hp] at herr
          exact absurd herr (by simp)
  | nothing => exact absurd herr (by simp [read])
  | raw => exact absurd herr (by simp [read])
  | optional s2 =>
      rw [read.eq_def] at herr
      simp only [] at herr
      by_cases hn : v.nullish
      · rw [if_pos hn] at herr
        exact absurd herr (by simp)
      · rw [if_neg hn] at herr
        exact readSafeAux s2 v e (by simpa [Schema.variantFree] using hvf) herr
  | nullable s2 =>
      rw [read.eq_def] at herr
      simp only [] at herr
      by_cases hn : v.nullish
      · rw [if_pos hn] at herr
        exact absurd herr (by simp)
      · rw [if_neg hn] at herr
        exact readSafeAux s2 v e (by simpa [Schema.variantFree] using hvf) herr
  | array s2 =>
      rw [read.eq_def] at herr
      simp only [] at herr
      cases v with
      | arr xs =>
          have h2 := map_error _ _ _ herr
          exact mapValueList_error (fun w => read s2 w)
            (fun x e2 hx => readSafeAux s2 x e2
              (by simpa [Schema.variantFree] using hvf) hx) xs e h2
      | _ => simp only [Except.error.injEq] at herr; exact ⟨_, _, herr.symm⟩
  | obj fs =>
      have h2 := map_error _ _ _ (show (readFields fs v).map Value.obj = .error e from herr)
      exact readFieldsSafeAux fs v e (by simpa [Schema.variantFree] using hvf) h2
  | part_obj fs =>
      have h2 := map_error _ _ _ (show (readPartFields fs v).map Value.obj = .error e from herr)
      exact readPartFieldsSafeAux fs v e (by simpa [Schema.variantFree] using hvf) h2
  | tuple ts =>
      rw [read.eq_def] at herr
      simp only [] at herr
      cases v with
      | arr xs =>
          have h2 := map_error _ _ _ herr
          exact readTupleSafeAux ts xs e (by simpa [Schema.variantFree] using hvf) h2
      | _ => simp only [Except.error.injEq] at herr; exact ⟨_, _, herr.symm⟩
  | oneOf keys =>
      rw [read.eq_def] at herr
      simp only [] at herr
      cases v <;> simp only [] at herr
      case str s2 =>
        by_cases hc : keys.contains s2
        · rw [if_pos hc] at herr
          exact absurd herr (by simp)
        · rw [if_neg hc] at herr
          simp only [Except.error.injEq] at herr
          exact ⟨_, _, herr.symm⟩
      all_goals (simp only [Except.error.injEq] at herr; exact ⟨_, _, herr.symm⟩)
  | variant bs => exact absurd hvf (by simp [Schema.variantFree])
termination_by structural s

/-- Every failure of the obj field loop over variant-free fields is a
ParseError. -/
theorem readFieldsSafeAux (fs : SchemaFields) : ∀ (o : Value) (e : JsError),
    SchemaFields.variantFree fs = true → readFields fs o = .error e →
      ∃ w g, e = .parseError w g := by
  intro o e hvf herr
  cases fs with
  | nil => exact absurd herr (by simp [readFields])
  | cons k s rest =>
      rw [readFields.eq_def] at herr
      simp only [] at herr
      by_cases ho : o.objLike
      · rw [if_pos ho] at herr
        cases h0 : read s (o.getProp k) with
        | error e2 =>
            rw [h0] at herr
            simp only [exceptBind_error, Except.error.injEq] at herr
            subst herr
            exact readSafeAux s (o.getProp k) e2
              (by simp [SchemaFields.variantFree] at hvf; exact hvf.1) h0
        | ok y =>
            rw [h0] at herr
            simp only [exceptBind_ok] at herr
            cases htl : readFields rest o with
            | error e2 =>
                rw [htl] at herr
                simp only [exceptBind_error, Except.error.injEq] at herr
                subst herr
                exact readFieldsSafeAux rest o e2
                  (by simp [SchemaFields.variantFree] at hvf; exact hvf.2) htl
            | ok ys =>
                rw [htl] at herr
                exact absurd herr (by simp)
      · rw [if_neg ho] at herr
        simp only [Except.error.injEq] at herr
        exact ⟨_, _, herr.symm⟩
termination_by structural fs

/-- Every failure of the part_obj field loop over variant-free fields is a
ParseError. -/
theorem readPartFieldsSafeAux (fs : SchemaFields) : ∀ (o : Value) (e : JsError),
    SchemaFields.variantFree fs = true → readPartFields fs o = .error e →
      ∃ w g, e = .parseError w g := by
  intro o e hvf herr
  cases fs with
  | nil => exact absurd herr (by simp [readPartFields])
  | cons k s rest =>
      rw [readPartFields.eq_def] at herr
      simp only [] at herr
      by_cases ho : o.objLike
      · rw [if_pos ho] at herr
        by_cases hn : (o.getProp k).nullish
        · rw [if_pos hn] at herr
          simp only [exceptBind_ok] at herr
          cases htl : readPartFields rest o with
          | error e2 =>
              rw [htl] at herr
              simp only [exceptBind_error, Except.error.injEq] at herr
              subst herr
              exact readPartFieldsSafeAux rest o e2
                (by simp [SchemaFields.variantFree] at hvf; exact hvf.2) htl
          | ok ys =>
              rw [htl] at herr
              exact absurd herr (by simp)
        · rw [if_neg hn] at herr
          cases h0 : read s (o.getProp k) with
          | error e2 =>
              rw [h0] at herr
              simp only [exceptBind_error, Except.error.injEq] at herr
              subst herr
              exact readSafeAux s (o.getProp k) e2
                (by simp [SchemaFields.variantFree] at hvf; exact hvf.1) h0
          | ok y =>
              rw [h0] at herr
              simp only [exceptBind_ok] at herr
              cases htl : readPartFields rest o with
              | error e2 =>
                  rw [htl] at herr
                  simp only [exceptBind_error, Except.error.injEq] at herr
                  subst herr
                  exact readPartFieldsSafeAux rest o e2
                    (by simp [SchemaFields.variantFree] at hvf; exact hvf.2) htl
              | ok ys =>
                  rw [htl] at herr
                  exact absurd herr (by simp)
      · rw [if_neg ho] at herr
        simp only [Except.error.injEq] at herr
        exact ⟨_, _, herr.symm⟩
termination_by structural fs

/-- Every failure of the tuple position loop over variant-free schemas is a
ParseError. -/
theorem readTupleSafeAux (ts : SchemaList) : ∀ (xs : ValueList) (e : JsError),
    SchemaList.variantFree ts = true → readTuple ts xs = .error e →
      ∃ w g, e = .parseError w g := by
  intro xs e hvf herr
  cases ts with
  | nil => exact absurd herr (by simp [readTuple])
  | cons s rest =>
      rw [readTuple.eq_def] at herr
      simp only [] at herr
      cases h0 : read s (xs.get 0) with
      | error e2 =>
          rw [h0] at herr
          simp only [exceptBind_error, Except.error.injEq] at herr
          subst herr
          exact readSafeAux s (xs.get 0) e2
            (by simp [SchemaList.variantFree] at hvf; exact hvf.1) h0
      | ok y =>
          rw [h0] at herr
          simp only [exceptBind_ok] at herr
          cases htl : readTuple rest xs.tail with
          | error e2 =>
              rw [htl] at herr
              simp only [exceptBind_error, Except.error.injEq] at herr
              subst herr
              exact readTupleSafeAux rest xs.tail e2
                (by simp [SchemaList.variantFree] at hvf; exact hvf.2) htl
          | ok ys =>
              rw [htl] at herr
              exact absurd herr (by simp)
termination_by structural ts
end

end SafePortals

namespace SafePortals

/-- C2 counterexample: the claim as stated is false.  `variant` is built
from the library's combinators, yet decoding null (or undefined — the value
an enclosing `obj` field supplies for a missing key) does not produce the
single validation-error kind: the unguarded `o.type` access raises a
TypeError, which is not a ParseError. -/
theorem c2_counterexample :
    read (.variant (.cons "a" false .nil .nil)) .vnull = .error .typeError ∧
    read (.variant (.cons "a" false .nil .nil)) .undefined = .error .typeError ∧
    ∀ w g, JsError.typeError ≠ JsError.parseError w g :=
  ⟨by decide, by decide, fun w g h => JsError.noConfusion h⟩

/-- C2 amended: decode is total up to the enumerated ParseError paths for
every schema that does not use `variant`: on any untyped input, `read`
either returns a value or fails with the single validation-error kind (a
ParseError carrying the expected description and the actual value).  (For
schemas containing `variant`, the unguarded discriminant access additionally
raises a TypeError exactly when the variant decoder meets a nullish input,
as the counterexample shows; every other variant failure is a ParseError.) -/
theorem c2_decode_failure_kinds (s : Schema) (v : Value)
    (h : s.variantFree = true) :
    (∃ t, read s v = .ok t) ∨ (∃ w g, read s v = .error (.parseError w g)) := by
  cases hr : read s v with
  | ok t => exact Or.inl ⟨t, rfl⟩
  | error e =>
      obtain ⟨w, g, rfl⟩ := readSafeAux s v e h hr
      exact Or.inr ⟨w, g, rfl⟩

/-- Witness for C2 at a nested variant-free schema and a mismatched input. -/
theorem c2_decode_failure_kinds_witness :
    (∃ t, read (.obj (.cons "a" .int .nil)) .vnull = .ok t) ∨
    (∃ w g, read (.obj (.cons "a" .int .nil)) .vnull = .error (.parseError w g)) :=
  c2_decode_failure_kinds (.obj (.cons "a" .int .nil)) .vnull (by decide)

end SafePortals

namespace SafePortals

/-! ### C1, stage 1: decimal print / parse round trip -/

theorem digitChar_toNat (n : Nat) (h : n < 10) : (digitChar n).toNat - 48 = n := by
  interval_cases n <;> decide

theorem digitChar_isDigit (n : Nat) (h : n < 10) : (digitChar n).isDigit = true := by
  interval_cases n <;> decide

theorem isDigit_not_ws (c : Char) (h : c.isDigit = true) : jsWhitespace c = false := by
  by_contra hcon
  have ht : jsWhitespace c = true := by simpa using hcon
  simp only [jsWhitespace, Bool.or_eq_true, decide_eq_true_eq] at ht
  rcases ht with ((((hc | hc) | hc) | hc) | hc) | hc <;>
    (subst hc; exact absurd h (by decide))

theorem isDigit_not_sign (c : Char) (h : c.isDigit = true) : c ≠ '-' ∧ c ≠ '+' := by
  constructor <;> (intro hc; subst hc; exact absurd h (by decide))

theorem isDigit_not_x (c : Char) (h : c.isDigit = true) : ¬(c = 'x' ∨ c = 'X') := by
  rintro (hc | hc) <;> (subst hc; exact absurd h (by decide))

theorem isDigit_not_dot (c : Char) (h : c.isDigit = true) : c ≠ '.' := by
  intro hc; subst hc; exact absurd h (by decide)

theorem foldl_digits (ds : List Char) : ∀ a : Nat,
    ds.foldl (fun x c => 10 * x + (c.toNat - 48)) a =
      a * 10 ^ ds.length + digitsToNat ds := by
  induction ds with
  | nil => intro a; simp [digitsToNat]
  | cons c ds ih =>
      intro a
      have h1 := ih (10 * a + (c.toNat - 48))
      have h2 := ih (c.toNat - 48)
      simp only [List.foldl_cons, List.length_cons]
      rw [h1]
      have h3 : digitsToNat (c :: ds) = (c.toNat - 48) * 10 ^ ds.length + digitsToNat ds := by
        simp only [digitsToNat, List.foldl_cons]
        have := ih (10 * 0 + (c.toNat - 48))
        simpa using this
      rw [h3]
      ring

theorem digitsToNat_append (ds1 ds2 : List Char) :
    digitsToNat (ds1 ++ ds2) = digitsToNat ds1 * 10 ^ ds2.length + digitsToNat ds2 := by
  simp only [digitsToNat, List.foldl_append]
  rw [show (List.foldl (fun x c => 10 * x + (c.toNat - 48)) 0 ds1) = digitsToNat ds1 from rfl,
    foldl_digits]
  rfl

theorem digitsToNat_replicate_zero (j : Nat) :
    digitsToNat (List.replicate j '0') = 0 := by
  induction j with
  | zero => rfl
  | succ n ih =>
      rw [List.replicate_succ,
        show ('0' :: List.replicate n '0') = ['0'] ++ List.replicate n '0' from rfl,
        digitsToNat_append, ih]
      have h0 : digitsToNat ['0'] = 0 := by decide
      simp [h0]

theorem natToDigitsGo_spec (fuel : Nat) : ∀ n, n < fuel →
    digitsToNat (natToDigitsGo fuel n) = n ∧
      (∀ c ∈ natToDigitsGo fuel n, c.isDigit = true) ∧
      natToDigitsGo fuel n ≠ [] := by
  induction fuel with
  | zero => intro n h; omega
  | succ fuel ih =>
      intro n h
      by_cases h10 : n < 10
      · rw [natToDigitsGo, if_pos h10]
        refine ⟨?_, ?_, by simp⟩
        · simpa [digitsToNat] using digitChar_toNat n h10
        · intro c hc
          simp only [List.mem_singleton] at hc
          subst hc
          exact digitChar_isDigit n h10
      · rw [natToDigitsGo, if_neg h10]
        have hn : n / 10 < fuel := by omega
        obtain ⟨h1, h2, h3⟩ := ih (n / 10) hn
        refine ⟨?_, ?_, by simp⟩
        · rw [digitsToNat_append, h1]
          have hm : digitsToNat [digitChar (n % 10)] = n % 10 := by
            simpa [digitsToNat] using digitChar_toNat (n % 10) (Nat.mod_lt n (by omega))
          simp [hm]
          omega
        · intro c hc
          rcases List.mem_append.mp hc with hc | hc
          · exact h2 c hc
          · simp only [List.mem_singleton] at hc
            subst hc
            exact digitChar_isDigit (n % 10) (Nat.mod_lt n (by omega))

theorem natToDigits_spec (n : Nat) :
    digitsToNat (natToDigits n) = n ∧
      (∀ c ∈ natToDigits n, c.isDigit = true) ∧ natToDigits n ≠ [] :=
  natToDigitsGo_spec (n + 1) n (by omega)

theorem natToDigitsGo_length (fuel : Nat) : ∀ n k, n < fuel → n < 10 ^ k → 1 ≤ k →
    (natToDigitsGo fuel n).length ≤ k := by
  induction fuel with
  | zero => intro n k h; omega
  | succ fuel ih =>
      intro n k h hk h1
      by_cases h10 : n < 10
      · rw [natToDigitsGo, if_pos h10]
        simpa using h1
      · rw [natToDigitsGo, if_neg h10]
        have hk2 : 2 ≤ k := by
          by_contra hcon
          interval_cases k <;> omega
        have hdiv : n / 10 < 10 ^ (k - 1) := by
          have h100 : (10 : Nat) ^ k = 10 ^ (k - 1) * 10 := by
            rw [← pow_succ]
            congr 1
            omega
          rw [h100] at hk
          omega
        have := ih (n / 10) (k - 1) (by omega) hdiv (by omega)
        simp only [List.length_append, List.length_singleton]
        omega

theorem takeWhile_all (p : Char → Bool) (ds : List Char) (h : ∀ c ∈ ds, p c = true) :
    ds.takeWhile p = ds ∧ ds.dropWhile p = [] := by
  induction ds with
  | nil => simp
  | cons c rest ih =>
      have hc : p c = true := h c (by simp)
      obtain ⟨h1, h2⟩ := ih (fun x hx => h x (by simp [hx]))
      simp [List.takeWhile_cons, List.dropWhile_cons, hc, h1, h2]

theorem takeWhile_append_stop (p : Char → Bool) (ds rest : List Char) (x : Char)
    (h : ∀ c ∈ ds, p c = true) (hx : p x = false) :
    (ds ++ x :: rest).takeWhile p = ds ∧ (ds ++ x :: rest).dropWhile p = x :: rest := by
  induction ds with
  | nil => simp [List.takeWhile_cons, List.dropWhile_cons, hx]
  | cons c ds2 ih =>
      have hc : p c = true := h c (by simp)
      obtain ⟨h1, h2⟩ := ih (fun y hy => h y (by simp [hy]))
      simp [List.takeWhile_cons, List.dropWhile_cons, hc, h1, h2]

end SafePortals

namespace SafePortals

theorem decExpGo_some_dvd (d : Nat) (fuel : Nat) : ∀ k0 k,
    decExpGo d fuel k0 = some k → d ∣ 10 ^ k := by
  induction fuel with
  | zero => intro k0 k h; exact absurd h (by simp [decExpGo])
  | succ fuel ih =>
      intro k0 k h
      rw [decExpGo] at h
      by_cases hd : d ∣ 10 ^ k0
      · rw [if_pos hd] at h
        obtain rfl : k0 = k := Option.some.inj h
        exact hd
      · rw [if_neg hd] at h
        exact ih (k0 + 1) k h

theorem decExpGo_isSome (d : Nat) (fuel : Nat) : ∀ k0,
    (∃ j, k0 ≤ j ∧ j < k0 + fuel ∧ d ∣ 10 ^ j) → (decExpGo d fuel k0).isSome := by
  induction fuel with
  | zero => intro k0 ⟨j, h1, h2, _⟩; omega
  | succ fuel ih =>
      intro k0 ⟨j, h1, h2, h3⟩
      rw [decExpGo]
      by_cases hd : d ∣ 10 ^ k0
      · simp [hd]
      · rw [if_neg hd]
        refine ih (k0 + 1) ⟨j, ?_, by omega, h3⟩
        rcases Nat.eq_or_lt_of_le h1 with rfl | hlt
        · exact absurd h3 hd
        · omega

/-- A divisor of a power of 10 already divides 10^j for some j within the
divisor itself (it is 2^a·5^b with a, b below it). -/
theorem dvd_ten_pow_small (d K : Nat) (hd : 0 < d) (h : d ∣ 10 ^ K) :
    ∃ j, j ≤ d ∧ d ∣ 10 ^ j := by
  have h10 : (10 : Nat) ^ K = 2 ^ K * 5 ^ K := by
    rw [show (10 : Nat) = 2 * 5 from rfl, mul_pow]
  rw [h10] at h
  obtain ⟨a, b, ha, hb, hab⟩ := exists_dvd_and_dvd_of_dvd_mul h
  obtain ⟨i, hiK, rfl⟩ := (Nat.dvd_prime_pow Nat.prime_two).mp ha
  obtain ⟨j, hjK, rfl⟩ := (Nat.dvd_prime_pow Nat.prime_five).mp hb
  refine ⟨max i j, ?_, ?_⟩
  · have h2d : 2 ^ i ≤ d := Nat.le_of_dvd hd ⟨5 ^ j, hab⟩
    have h5d : 5 ^ j ≤ d := Nat.le_of_dvd hd ⟨2 ^ i, by rw [hab]; ring⟩
    have hi2 : i < 2 ^ i := Nat.lt_two_pow i
    have hj5 : j < 5 ^ j := Nat.lt_pow_self (by omega) j
    omega
  · rw [hab, show (10 : Nat) = 2 * 5 from rfl, mul_pow]
    exact mul_dvd_mul (pow_dvd_pow 2 (le_max_left i j)) (pow_dvd_pow 5 (le_max_right i j))

theorem decExp_some_dvd (d k : Nat) (h : decExp d = some k) : d ∣ 10 ^ k :=
  decExpGo_some_dvd d (d + 1) 0 k h

theorem decExp_isSome_of_dvd (d K : Nat) (hd : 0 < d) (h : d ∣ 10 ^ K) :
    ∃ k, decExp d = some k := by
  obtain ⟨j, hj, hjd⟩ := dvd_ten_pow_small d K hd h
  have h2 := decExpGo_isSome d (d + 1) 0 ⟨j, by omega, by omega, hjd⟩
  rw [decExp]
  exact Option.isSome_iff_exists.mp h2

theorem decRat_den_dvd (m : Int) (k : Nat) : (decRat m k).den ∣ 10 ^ k := by
  have h := Rat.den_dvd m ((10 : Int) ^ k)
  rw [show Rat.divInt m ((10 : Int) ^ k) = decRat m k from rfl] at h
  have h2 : ((decRat m k).den : Int) ∣ ((10 ^ k : Nat) : Int) := by
    simpa [push_cast] using h
  exact_mod_cast h2

theorem ratOfInt_eq (i : Int) : ratOfInt i = (i : ℚ) := by
  refine Rat.ext ?_ ?_
  · rw [Rat.intCast_num]
    rfl
  · rw [Rat.intCast_den]
    rfl

theorem decRat_eq (m : Int) (k : Nat) : decRat m k = (m : ℚ) / (10 : ℚ) ^ k := by
  rw [decRat, Rat.divInt_eq_div]
  push_cast
  ring

theorem mulPow10_eq (q : Rat) (n : Nat) : mulPow10 q n = q * (10 : ℚ) ^ n := by
  rw [mulPow10, Rat.divInt_eq_div]
  rw [show ((q.den : Int) : ℚ) = (q.den : ℚ) from by push_cast; ring]
  rw [show ((q.num * (10 : Int) ^ n : Int) : ℚ) = (q.num : ℚ) * 10 ^ n from by push_cast; ring]
  rw [mul_comm (q.num : ℚ) _, mul_div_assoc, Rat.num_div_den, mul_comm]

end SafePortals

namespace SafePortals

theorem strToList_append (a b : String) : (a ++ b).toList = a.toList ++ b.toList := by
  simp [String.toList]

theorem padDigits_value (k r : Nat) (hr : r < 10 ^ k) :
    digitsToNat (padDigits k r) = r := by
  rw [padDigits, digitsToNat_append, digitsToNat_replicate_zero, (natToDigits_spec r).1]
  simp

theorem padDigits_length (k r : Nat) (hk : 1 ≤ k) (hr : r < 10 ^ k) :
    (padDigits k r).length = k := by
  rw [padDigits]
  have hle := natToDigitsGo_length (r + 1) r k (by omega) hr hk
  rw [show natToDigitsGo (r + 1) r = natToDigits r from rfl] at hle
  simp only [List.length_append, List.length_replicate]
  omega

theorem padDigits_all_digits (k r : Nat) :
    ∀ c ∈ padDigits k r, c.isDigit = true := by
  intro c hc
  rw [padDigits] at hc
  rcases List.mem_append.mp hc with hc | hc
  · have : c = '0' := List.eq_of_mem_replicate hc
    subst this
    decide
  · exact (natToDigits_spec r).2.1 c hc

end SafePortals

namespace SafePortals

theorem strData_append (a b : String) : (a ++ b).data = a.data ++ b.data := rfl

theorem parseFloat_core_frac (neg : Bool) (I r k : Nat) (hk : 1 ≤ k) (hr : r < 10 ^ k) :
    parseFloatJS ((if neg then "-" else "") ++ String.mk (natToDigits I) ++ "." ++
        String.mk (padDigits k r)) =
      some (decRat (if neg then -((I * 10 ^ k + r : Nat) : Int) else ((I * 10 ^ k + r : Nat) : Int)) k) := by
  obtain ⟨hvalI, hdigI, hneI⟩ := natToDigits_spec I
  obtain ⟨c, cs0, hds⟩ := List.exists_cons_of_ne_nil hneI
  have hcdig : c.isDigit = true := hdigI c (by rw [hds]; simp)
  have hdot : Char.isDigit '.' = false := by decide
  obtain ⟨htw, hdw⟩ := takeWhile_append_stop Char.isDigit (natToDigits I) (padDigits k r) '.' hdigI hdot
  obtain ⟨htw2, hdw2⟩ := takeWhile_all Char.isDigit (padDigits k r) (padDigits_all_digits k r)
  have hlen := padDigits_length k r hk hr
  have hval2 := padDigits_value k r hr
  have hie : (natToDigits I).isEmpty = false := by rw [hds]; rfl
  have hdm : ∀ ds : List Char, (String.mk ds).data = ds := fun _ => rfl
  have hd1 : ("-" : String).data = ['-'] := rfl
  have hd2 : ("." : String).data = ['.'] := rfl
  have hdmt : ∀ ds : List Char, (String.mk ds).toList = ds := fun _ => rfl
  have hd1t : ("-" : String).toList = ['-'] := rfl
  have hd2t : ("." : String).toList = ['.'] := rfl
  cases neg with
  | true =>
      have hws : jsWhitespace '-' = false := by decide
      have hdrop : List.dropWhile jsWhitespace ('-' :: (natToDigits I ++ '.' :: padDigits k r))
          = '-' :: (natToDigits I ++ '.' :: padDigits k r) := by
        simp [List.dropWhile_cons, hws]
      have hsplit : splitSign ('-' :: (natToDigits I ++ '.' :: padDigits k r))
          = (true, natToDigits I ++ '.' :: padDigits k r) := by
        simp [splitSign]
      rw [if_pos rfl]
      rw [parseFloatJS]
      simp only [strData_append, strToList_append, hdm, hd1, hd2, hdmt, hd1t, hd2t,
        List.append_assoc, List.singleton_append, List.cons_append, List.nil_append]
      simp only [hdrop, hsplit, htw, hdw, htw2, hdw2, hvalI, hval2, hlen, hie]
      simp [parseExpPart]
  | false =>
      have hws : jsWhitespace c = false := isDigit_not_ws c hcdig
      obtain ⟨hs1, hs2⟩ := isDigit_not_sign c hcdig
      have hdrop : List.dropWhile jsWhitespace (natToDigits I ++ '.' :: padDigits k r)
          = natToDigits I ++ '.' :: padDigits k r := by
        rw [hds, List.cons_append]
        simp [List.dropWhile_cons, hws]
      have hsplit : splitSign (natToDigits I ++ '.' :: padDigits k r)
          = (false, natToDigits I ++ '.' :: padDigits k r) := by
        rw [hds, List.cons_append, splitSign]
        simp [hs1, hs2]
      rw [if_neg Bool.false_ne_true]
      rw [parseFloatJS]
      simp only [strData_append, strToList_append, hdm, hd1, hd2, hdmt, hd1t, hd2t,
        List.append_assoc, List.singleton_append, List.cons_append, List.nil_append]
      simp only [hdrop, hsplit, htw, hdw, htw2, hdw2, hvalI, hval2, hlen, hie]
      simp [parseExpPart]

end SafePortals

namespace SafePortals

theorem parseFloat_core_int (neg : Bool) (I : Nat) :
    parseFloatJS ((if neg then "-" else "") ++ String.mk (natToDigits I)) =
      some (decRat (if neg then -(I : Int) else (I : Int)) 0) := by
  obtain ⟨hvalI, hdigI, hneI⟩ := natToDigits_spec I
  obtain ⟨c, cs0, hds⟩ := List.exists_cons_of_ne_nil hneI
  have hcdig : c.isDigit = true := hdigI c (by rw [hds]; simp)
  obtain ⟨htw, hdw⟩ := takeWhile_all Char.isDigit (natToDigits I) hdigI
  have hie : (natToDigits I).isEmpty = false := by rw [hds]; rfl
  have hdm : ∀ ds : List Char, (String.mk ds).data = ds := fun _ => rfl
  have hd1 : ("-" : String).data = ['-'] := rfl
  have hdmt : ∀ ds : List Char, (String.mk ds).toList = ds := fun _ => rfl
  have hd1t : ("-" : String).toList = ['-'] := rfl
  cases neg with
  | true =>
      have hws : jsWhitespace '-' = false := by decide
      have hdrop : List.dropWhile jsWhitespace ('-' :: natToDigits I) = '-' :: natToDigits I := by
        simp [List.dropWhile_cons, hws]
      have hsplit : splitSign ('-' :: natToDigits I) = (true, natToDigits I) := by
        simp [splitSign]
      rw [if_pos rfl]
      rw [parseFloatJS]
      simp only [strData_append, strToList_append, hdm, hd1, hdmt, hd1t,
        List.append_assoc, List.singleton_append, List.cons_append, List.nil_append]
      simp only [hdrop, hsplit, htw, hdw, hvalI, hie]
      simp [parseExpPart, digitsToNat]
  | false =>
      have hws : jsWhitespace c = false := isDigit_not_ws c hcdig
      obtain ⟨hs1, hs2⟩ := isDigit_not_sign c hcdig
      have hdrop : List.dropWhile jsWhitespace (natToDigits I) = natToDigits I := by
        rw [hds]
        simp [List.dropWhile_cons, hws]
      have hsplit : splitSign (natToDigits I) = (false, natToDigits I) := by
        rw [hds, splitSign]
        simp [hs1, hs2]
      rw [if_neg Bool.false_ne_true]
      rw [parseFloatJS]
      simp only [strData_append, strToList_append, hdm, hd1, hdmt, hd1t,
        List.append_assoc, List.singleton_append, List.cons_append, List.nil_append]
      simp only [hdrop, hsplit, htw, hdw, hvalI, hie]
      simp [parseExpPart, digitsToNat]

theorem parseInt_core (neg : Bool) (I : Nat) :
    parseIntJS ((if neg then "-" else "") ++ String.mk (natToDigits I)) =
      some (if neg then -(I : Int) else (I : Int)) := by
  obtain ⟨hvalI, hdigI, hneI⟩ := natToDigits_spec I
  obtain ⟨c, cs0, hds⟩ := List.exists_cons_of_ne_nil hneI
  have hcdig : c.isDigit = true := hdigI c (by rw [hds]; simp)
  obtain ⟨htw, hdw⟩ := takeWhile_all Char.isDigit (natToDigits I) hdigI
  have hie : (natToDigits I).isEmpty = false := by rw [hds]; rfl
  have hdm : ∀ ds : List Char, (String.mk ds).data = ds := fun _ => rfl
  have hd1 : ("-" : String).data = ['-'] := rfl
  have hdmt : ∀ ds : List Char, (String.mk ds).toList = ds := fun _ => rfl
  have hd1t : ("-" : String).toList = ['-'] := rfl
  have harm : ∀ sgn : Bool, (match natToDigits I with
      | c0 :: c1 :: rest =>
          if c0 = '0' ∧ (c1 = 'x' ∨ c1 = 'X') then
            let hs := rest.takeWhile isHexDigit
            if hs.isEmpty then none else some (if sgn then -(hexDigitsToNat hs : Int) else (hexDigitsToNat hs : Int))
          else
            let ds := (natToDigits I).takeWhile Char.isDigit
            if ds.isEmpty then none else some (if sgn then -(digitsToNat ds : Int) else (digitsToNat ds : Int))
      | _ =>
          let ds := (natToDigits I).takeWhile Char.isDigit
          if ds.isEmpty then none else some (if sgn then -(digitsToNat ds : Int) else (digitsToNat ds : Int)))
      = some (if sgn then -(I : Int) else (I : Int)) := by
    intro sgn
    rw [hds]
    cases cs0 with
    | nil =>
        simp only []
        rw [← hds, htw]
        simp [hie, hvalI]
    | cons c1 cs1 =>
        have hc1 : c1.isDigit = true := hdigI c1 (by rw [hds]; simp)
        have hnx := isDigit_not_x c1 hc1
        simp only []
        rw [if_neg (by rintro ⟨h0, hx⟩; exact hnx hx)]
        rw [← hds, htw]
        simp [hie, hvalI]
  cases neg with
  | true =>
      have hws : jsWhitespace '-' = false := by decide
      have hdrop : List.dropWhile jsWhitespace ('-' :: natToDigits I) = '-' :: natToDigits I := by
        simp [List.dropWhile_cons, hws]
      have hsplit : splitSign ('-' :: natToDigits I) = (true, natToDigits I) := by
        simp [splitSign]
      rw [if_pos rfl]
      rw [parseIntJS]
      simp only [strData_append, strToList_append, hdm, hd1, hdmt, hd1t,
        List.append_assoc, List.singleton_append, List.cons_append, List.nil_append]
      simp only [hdrop, hsplit]
      exact harm true
  | false =>
      have hws : jsWhitespace c = false := isDigit_not_ws c hcdig
      obtain ⟨hs1, hs2⟩ := isDigit_not_sign c hcdig
      have hdrop : List.dropWhile jsWhitespace (natToDigits I) = natToDigits I := by
        rw [hds]
        simp [List.dropWhile_cons, hws]
      have hsplit : splitSign (natToDigits I) = (false, natToDigits I) := by
        rw [hds, splitSign]
        simp [hs1, hs2]
      rw [if_neg Bool.false_ne_true]
      rw [parseIntJS]
      simp only [strData_append, strToList_append, hdm, hd1, hdmt, hd1t,
        List.append_assoc, List.singleton_append, List.cons_append, List.nil_append]
      simp only [hdrop, hsplit]
      exact harm false

end SafePortals

namespace SafePortals

theorem num_cast_eq_self (q : ℚ) (hd1 : q.den = 1) : ((q.num : ℚ)) = q := by
  rw [← Rat.num_div_den q, hd1]
  simp

/-- Printing a finite-decimal rational and parsing it back is the identity:
the JS float print/parse round trip. -/
theorem ratToDecimal_spec (q : ℚ) (k : Nat) (hk : decExp q.den = some k) :
    parseFloatJS (ratToDecimal q) = some q := by
  have hdvd := decExp_some_dvd q.den k hk
  have hd0 : 0 < q.den := q.pos
  by_cases hk0 : k = 0
  · subst hk0
    have hd1 : q.den = 1 := Nat.dvd_one.mp (by simpa using hdvd)
    have hm : q.num.natAbs * (10 ^ 0 / q.den) = q.num.natAbs := by simp [hd1]
    rw [ratToDecimal, hk]
    simp only []
    rw [if_pos trivial, hm]
    by_cases hq : q.num < 0
    · rw [if_pos hq]
      have hcore := parseFloat_core_int true q.num.natAbs
      rw [if_pos rfl, if_pos rfl] at hcore
      rw [hcore]
      congr 1
      rw [decRat, pow_zero, Rat.divInt_one]
      have hneg : (-(q.num.natAbs : Int)) = q.num := by omega
      rw [hneg]
      exact num_cast_eq_self q hd1
    · rw [if_neg hq]
      have hcore := parseFloat_core_int false q.num.natAbs
      rw [if_neg Bool.false_ne_true, if_neg Bool.false_ne_true] at hcore
      rw [hcore]
      congr 1
      rw [decRat, pow_zero, Rat.divInt_one]
      have hpos : ((q.num.natAbs : Int)) = q.num := by omega
      rw [hpos]
      exact num_cast_eq_self q hd1
  · have hk1 : 1 ≤ k := by omega
    have hpow0 : 0 < (10 : Nat) ^ k := by positivity
    have hr : (q.num.natAbs * (10 ^ k / q.den)) % 10 ^ k < 10 ^ k := Nat.mod_lt _ hpow0
    have hdm : 10 ^ k / q.den * q.den = 10 ^ k := Nat.div_mul_cancel hdvd
    have hdmz : ((10 ^ k / q.den : Nat) : ℤ) * (q.den : ℤ) = (10 : ℤ) ^ k := by
      exact_mod_cast hdm
    have hsum : (q.num.natAbs * (10 ^ k / q.den)) / 10 ^ k * 10 ^ k +
        (q.num.natAbs * (10 ^ k / q.den)) % 10 ^ k = q.num.natAbs * (10 ^ k / q.den) := by
      rw [mul_comm]
      exact Nat.div_add_mod _ _
    rw [ratToDecimal, hk]
    simp only []
    rw [if_neg hk0]
    by_cases hq : q.num < 0
    · rw [if_pos hq]
      have hcore := parseFloat_core_frac true ((q.num.natAbs * (10 ^ k / q.den)) / 10 ^ k)
        ((q.num.natAbs * (10 ^ k / q.den)) % 10 ^ k) k hk1 hr
      rw [if_pos rfl, if_pos rfl] at hcore
      rw [hcore]
      congr 1
      rw [hsum, decRat]
      conv_rhs => rw [← Rat.num_divInt_den q]
      rw [Rat.divInt_eq_divInt (by positivity) (by exact_mod_cast hd0.ne')]
      have hcast : ((q.num.natAbs * (10 ^ k / q.den) : Nat) : ℤ)
          = (q.num.natAbs : ℤ) * ((10 ^ k / q.den : Nat) : ℤ) := by push_cast; ring
      have hnum : ((q.num.natAbs : Int)) = -q.num := by omega
      rw [hcast, hnum, ← hdmz]
      ring
    · rw [if_neg hq]
      have hcore := parseFloat_core_frac false ((q.num.natAbs * (10 ^ k / q.den)) / 10 ^ k)
        ((q.num.natAbs * (10 ^ k / q.den)) % 10 ^ k) k hk1 hr
      rw [if_neg Bool.false_ne_true, if_neg Bool.false_ne_true] at hcore
      rw [hcore]
      congr 1
      rw [hsum, decRat]
      conv_rhs => rw [← Rat.num_divInt_den q]
      rw [Rat.divInt_eq_divInt (by positivity) (by exact_mod_cast hd0.ne')]
      have hcast : ((q.num.natAbs * (10 ^ k / q.den) : Nat) : ℤ)
          = (q.num.natAbs : ℤ) * ((10 ^ k / q.den : Nat) : ℤ) := by push_cast; ring
      have hnum : ((q.num.natAbs : Int)) = q.num := by omega
      rw [hcast, hnum, ← hdmz]
      ring

/-- Printing an integral rational and parsing it with parseInt recovers the
integer: the JS integer print/parse round trip. -/
theorem parseInt_ratToDecimal (q : ℚ) (hd1 : q.den = 1) :
    parseIntJS (ratToDecimal q) = some q.num := by
  have hk : decExp q.den = some 0 := by rw [hd1]; decide
  have hm : q.num.natAbs * (10 ^ 0 / q.den) = q.num.natAbs := by simp [hd1]
  rw [ratToDecimal, hk]
  simp only []
  rw [if_pos trivial, hm]
  by_cases hq : q.num < 0
  · rw [if_pos hq]
    have hcore := parseInt_core true q.num.natAbs
    rw [if_pos rfl, if_pos rfl] at hcore
    rw [hcore]
    congr 1
    omega
  · rw [if_neg hq]
    have hcore := parseInt_core false q.num.natAbs
    rw [if_neg Bool.false_ne_true, if_neg Bool.false_ne_true] at hcore
    rw [hcore]
    congr 1
    omega

end SafePortals

namespace SafePortals

/-- Every successful parseFloat result is of the form m / 10^k. -/
theorem parseFloatJS_shape (s : String) (q : ℚ) (h : parseFloatJS s = some q) :
    ∃ m k, q = decRat m k := by
  rw [parseFloatJS] at h
  by_cases h1 : (let cs := s.toList.dropWhile jsWhitespace
      let sgn := splitSign cs
      (sgn.2.takeWhile Char.isDigit).isEmpty = true ∧
        (match sgn.2.dropWhile Char.isDigit with
          | '.' :: rest => rest.takeWhile Char.isDigit
          | _ => ([] : List Char)).isEmpty = true)
  · rw [if_pos h1] at h
    exact absurd h (by simp)
  · rw [if_neg h1] at h
    by_cases h2 : (0 : Int) ≤ parseExpPart
        (match (splitSign (s.toList.dropWhile jsWhitespace)).2.dropWhile Char.isDigit with
          | '.' :: rest => rest.dropWhile Char.isDigit
          | _ => (splitSign (s.toList.dropWhile jsWhitespace)).2.dropWhile Char.isDigit)
    · rw [if_pos h2] at h
      exact ⟨_, _, (Option.some.inj h).symm⟩
    · rw [if_neg h2] at h
      exact ⟨_, _, (Option.some.inj h).symm⟩

/-- Parsing a float and re-parsing its printed form is the identity. -/
theorem parseFloat_print_parse (s : String) (q : ℚ) (h : parseFloatJS s = some q) :
    parseFloatJS (ratToDecimal q) = some q := by
  obtain ⟨m, k, rfl⟩ := parseFloatJS_shape s q h
  have hdvd := decRat_den_dvd m k
  obtain ⟨k2, hk2⟩ := decExp_isSome_of_dvd (decRat m k).den k (decRat m k).pos hdvd
  exact ratToDecimal_spec (decRat m k) k2 hk2

theorem ratOfInt_den (i : Int) : (ratOfInt i).den = 1 := rfl

theorem ratOfInt_num (i : Int) : (ratOfInt i).num = i := rfl

/-- Printing an integer value and re-parsing it with parseInt is the
identity. -/
theorem parseInt_print_parse (i : Int) :
    parseIntJS (ratToDecimal (ratOfInt i)) = some i := by
  have h := parseInt_ratToDecimal (ratOfInt i) (ratOfInt_den i)
  rwa [ratOfInt_num] at h

theorem ratTrunc_intCast (i : Int) : ratTrunc ((i : ℚ)) = i := by
  rw [ratTrunc, Rat.intCast_num, Rat.intCast_den]
  exact Int.tdiv_one i

/-- Truncation toward zero does not increase magnitude (stated over ℚ). -/
theorem ratTrunc_abs_le (x : ℚ) : ((|ratTrunc x| : ℤ) : ℚ) ≤ |x| := by
  have hden : (0 : ℚ) < (x.den : ℚ) := by exact_mod_cast x.pos
  have habs : |x| = ((|x.num| : ℤ) : ℚ) / (x.den : ℚ) := by
    conv_lhs => rw [← Rat.num_div_den x]
    rw [abs_div]
    congr 1
    · push_cast
      ring
    · exact abs_of_pos hden
  rw [habs, le_div_iff hden, ratTrunc]
  have hna : (x.num.tdiv x.den).natAbs = x.num.natAbs / x.den := Int.natAbs_tdiv x.num x.den
  have h1 : x.num.natAbs / x.den * x.den ≤ x.num.natAbs := Nat.div_mul_le_self _ _
  have h2 : (|x.num.tdiv ↑x.den| : ℤ) * (x.den : ℤ) ≤ (|x.num| : ℤ) := by
    rw [Int.abs_eq_natAbs, Int.abs_eq_natAbs, hna]
    exact_mod_cast h1
  exact_mod_cast h2

/-- A clipped time value satisfies the Date range bound. -/
theorem timeClip_some_bound (x : ℚ) (ms : Int) (h : timeClip x = some ms) :
    |ms| ≤ 8640000000000000 := by
  rw [timeClip] at h
  by_cases hb : |x| ≤ ((8640000000000000 : Int) : ℚ)
  · rw [if_pos hb] at h
    obtain rfl : ratTrunc x = ms := Option.some.inj h
    have h1 := ratTrunc_abs_le x
    have h2 : ((|ratTrunc x| : ℤ) : ℚ) ≤ ((8640000000000000 : Int) : ℚ) := le_trans h1 hb
    exact_mod_cast h2
  · rw [if_neg hb] at h
    exact absurd h (by simp)

/-- Clipping an in-range integer time value is the identity. -/
theorem timeClip_intCast (i : Int) (h : |i| ≤ 8640000000000000) :
    timeClip ((i : ℚ)) = some i := by
  have hq : |(i : ℚ)| ≤ ((8640000000000000 : Int) : ℚ) := by
    rw [← Int.cast_abs]
    exact_mod_cast h
  rw [timeClip, if_pos hq, ratTrunc_intCast]

/-- The dateUnixSecs seconds value scales back exactly to the milliseconds. -/
theorem mulPow10_decRat_cancel (ms : Int) : mulPow10 (decRat ms 3) 3 = ((ms : ℚ)) := by
  rw [mulPow10_eq, decRat_eq]
  rw [div_mul_cancel₀]
  positivity

theorem isoRender_ne_empty (ms : Int) : (isoRender ms = "") = False := by
  simp only [eq_iff_iff, iff_false]
  intro h
  have : (isoRender ms).data = [] := by rw [h]
  rw [isoRender] at this
  rw [strData_append] at this
  simp at this

/-- Parsing the rendered date string recovers the time value. -/
theorem dateStringValue_isoRender (ms : Int) :
    dateStringValue (isoRender ms) = some ms := by
  obtain ⟨hval, hdig, hne⟩ := natToDigits_spec ms.natAbs
  obtain ⟨c, cs0, hds⟩ := List.exists_cons_of_ne_nil hne
  have hcdig : c.isDigit = true := hdig c (by rw [hds]; simp)
  obtain ⟨hs1, hs2⟩ := isDigit_not_sign c hcdig
  have hdm : ∀ ds : List Char, (String.mk ds).data = ds := fun _ => rfl
  have htl : (isoRender ms).toList
      = 'I' :: 'S' :: 'O' :: ':' :: ((if ms < 0 then "-" else "").data ++ natToDigits ms.natAbs) := by
    rw [isoRender, intToString]
    show (("ISO:" ++ ((if ms < 0 then "-" else "") ++ String.mk (natToDigits ms.natAbs)))).data = _
    rw [strData_append, strData_append, hdm]
    rfl
  rw [dateStringValue, htl]
  by_cases hms : ms < 0
  · rw [if_pos hms]
    simp only []
    have hsplit : splitSign (("-" : String).data ++ natToDigits ms.natAbs)
        = (true, natToDigits ms.natAbs) := by
      show splitSign ('-' :: natToDigits ms.natAbs) = _
      simp [splitSign]
    rw [hsplit]
    simp only [List.all_eq_true]
    rw [if_neg (by
      push_neg
      refine ⟨by rw [hds]; simp, fun c2 hc2 => hdig c2 hc2⟩)]
    rw [hval]
    congr 1
    rw [if_pos trivial]
    omega
  · rw [if_neg hms]
    simp only []
    have hsplit : splitSign (("" : String).data ++ natToDigits ms.natAbs)
        = (false, natToDigits ms.natAbs) := by
      show splitSign (natToDigits ms.natAbs) = _
      rw [hds, splitSign]
      simp [hs1, hs2]
    rw [hsplit]
    simp only [List.all_eq_true]
    rw [if_neg (by
      push_neg
      refine ⟨by rw [hds]; simp, fun c2 hc2 => hdig c2 hc2⟩)]
    rw [hval]
    congr 1
    rw [if_neg Bool.false_ne_true]
    omega

/-- Parsing the rendered date string of an in-range time value recovers it. -/
theorem dateFromString_isoRender (ms : Int) (h : ms.natAbs ≤ 8640000000000000) :
    dateFromString (isoRender ms) = some ms := by
  rw [dateFromString, dateStringValue_isoRender]
  show (if ms.natAbs ≤ 8640000000000000 then some ms else none) = some ms
  rw [if_pos h]

/-- A successfully parsed date string is in the Date range. -/
theorem dateFromString_bound (s : String) (ms : Int) (h : dateFromString s = some ms) :
    ms.natAbs ≤ 8640000000000000 := by
  rw [dateFromString] at h
  cases hv : dateStringValue s with
  | none => rw [hv] at h; exact absurd h (by simp)
  | some v =>
      rw [hv] at h
      have h2 : (if v.natAbs ≤ 8640000000000000 then some v else none) = some ms := h
      clear h
      by_cases hr : v.natAbs ≤ 8640000000000000
      · rw [if_pos hr] at h2
        obtain rfl := Option.some.inj h2
        exact hr
      · rw [if_neg hr] at h2
        exact absurd h2 (by simp)

end SafePortals

namespace SafePortals

/-! ### C1, stage 2: round-trip infrastructure -/

theorem getMember_obj (kvs : ValueFields) (k : String) :
    getMember (.obj kvs) k = .ok (kvs.lookup k) := rfl

/-- Reading fields only looks at the declared keys of the input object. -/
theorem readFields_congr (fs : SchemaFields) (A B : ValueFields)
    (hget : ∀ k, fs.keys.contains k = true → A.lookup k = B.lookup k) :
    readFields fs (.obj A) = readFields fs (.obj B) := by
  cases fs with
  | nil => rfl
  | cons k s rest =>
      rw [readFields.eq_def]
      conv_rhs => rw [readFields.eq_def]
      simp only []
      have hk : A.lookup k = B.lookup k := hget k (by simp [SchemaFields.keys])
      have hrest := readFields_congr rest A B
        (fun k2 hk2 => hget k2 (by simp [SchemaFields.keys]; right; simpa using hk2))
      simp only [Value.objLike, if_pos rfl, Value.getProp, hk, hrest]
      rw [if_pos trivial, if_pos trivial]
termination_by structural fs

/-- Reading partial fields only looks at the declared keys. -/
theorem readPartFields_congr (fs : SchemaFields) (A B : ValueFields)
    (hget : ∀ k, fs.keys.contains k = true → A.lookup k = B.lookup k) :
    readPartFields fs (.obj A) = readPartFields fs (.obj B) := by
  cases fs with
  | nil => rfl
  | cons k s rest =>
      rw [readPartFields.eq_def]
      conv_rhs => rw [readPartFields.eq_def]
      simp only []
      have hk : A.lookup k = B.lookup k := hget k (by simp [SchemaFields.keys])
      have hrest := readPartFields_congr rest A B
        (fun k2 hk2 => hget k2 (by simp [SchemaFields.keys]; right; simpa using hk2))
      simp only [Value.objLike, if_pos rfl, Value.getProp, hk, hrest]
      rw [if_pos trivial, if_pos trivial]
termination_by structural fs

/-- Writing fields only looks at the declared keys of the typed object. -/
theorem writeFields_congr (fs : SchemaFields) (A B : ValueFields)
    (hget : ∀ k, fs.keys.contains k = true → A.lookup k = B.lookup k) :
    writeFields fs (.obj A) = writeFields fs (.obj B) := by
  cases fs with
  | nil => rfl
  | cons k s rest =>
      rw [writeFields.eq_def]
      conv_rhs => rw [writeFields.eq_def]
      simp only []
      have hk : A.lookup k = B.lookup k := hget k (by simp [SchemaFields.keys])
      have hrest := writeFields_congr rest A B
        (fun k2 hk2 => hget k2 (by simp [SchemaFields.keys]; right; simpa using hk2))
      simp only [getMember_obj, hk, hrest]
termination_by structural fs

/-- Writing partial fields only looks at the declared keys. -/
theorem writePartFields_congr (fs : SchemaFields) (A B : ValueFields)
    (hget : ∀ k, fs.keys.contains k = true → A.lookup k = B.lookup k) :
    writePartFields fs (.obj A) = writePartFields fs (.obj B) := by
  cases fs with
  | nil => rfl
  | cons k s rest =>
      rw [writePartFields.eq_def]
      conv_rhs => rw [writePartFields.eq_def]
      simp only []
      have hk : A.lookup k = B.lookup k := hget k (by simp [SchemaFields.keys])
      have hrest := writePartFields_congr rest A B
        (fun k2 hk2 => hget k2 (by simp [SchemaFields.keys]; right; simpa using hk2))
      simp only [getMember_obj, hk, hrest]
termination_by structural fs

/-- A successful field read binds exactly the declared keys, in order. -/
theorem readFields_keys (fs : SchemaFields) : ∀ (o : Value) (kvs : ValueFields),
    readFields fs o = .ok kvs → kvs.keys = fs.keys := by
  intro o kvs h
  cases fs with
  | nil =>
      have h2 : (Except.ok ValueFields.nil : Except JsError ValueFields) = .ok kvs := h
      obtain rfl := Except.ok.inj h2
      rfl
  | cons k s rest =>
      rw [readFields.eq_def] at h
      simp only [] at h
      by_cases ho : o.objLike
      · rw [if_pos ho] at h
        cases h0 : read s (o.getProp k) with
        | error e => rw [h0] at h; exact absurd h (by simp)
        | ok v =>
            rw [h0] at h
            simp only [exceptBind_ok] at h
            cases htl : readFields rest o with
            | error e => rw [htl] at h; exact absurd h (by simp)
            | ok tl =>
                rw [htl] at h
                simp only [exceptBind_ok, Except.ok.injEq] at h
                subst h
                simp [ValueFields.keys, SchemaFields.keys, readFields_keys rest o tl htl]
      · rw [if_neg ho] at h
        exact absurd h (by simp)
termination_by structural fs

/-- A successful partial field read binds exactly the declared keys. -/
theorem readPartFields_keys (fs : SchemaFields) : ∀ (o : Value) (kvs : ValueFields),
    readPartFields fs o = .ok kvs → kvs.keys = fs.keys := by
  intro o kvs h
  cases fs with
  | nil =>
      have h2 : (Except.ok ValueFields.nil : Except JsError ValueFields) = .ok kvs := h
      obtain rfl := Except.ok.inj h2
      rfl
  | cons k s rest =>
      rw [readPartFields.eq_def] at h
      simp only [] at h
      by_cases ho : o.objLike
      · rw [if_pos ho] at h
        by_cases hn : (o.getProp k).nullish = true
        all_goals first
          | rw [if_pos hn] at h
          | rw [if_neg hn] at h
        all_goals try simp only [exceptBind_ok] at h
        · cases htl : readPartFields rest o with
          | error e => rw [htl] at h; exact absurd h (by simp)
          | ok tl =>
              rw [htl] at h
              simp only [exceptBind_ok, Except.ok.injEq] at h
              subst h
              simp [ValueFields.keys, SchemaFields.keys, readPartFields_keys rest o tl htl]
        · cases h0 : read s (o.getProp k) with
          | error e => rw [h0] at h; exact absurd h (by simp)
          | ok v =>
              rw [h0] at h
              simp only [exceptBind_ok] at h
              cases htl : readPartFields rest o with
              | error e => rw [htl] at h; exact absurd h (by simp)
              | ok tl =>
                  rw [htl] at h
                  simp only [exceptBind_ok, Except.ok.injEq] at h
                  subst h
                  simp [ValueFields.keys, SchemaFields.keys, readPartFields_keys rest o tl htl]
      · rw [if_neg ho] at h
        exact absurd h (by simp)
termination_by structural fs

/-- A successful field write binds exactly the declared keys, in order. -/
theorem writeFields_keys (fs : SchemaFields) : ∀ (r : Value) (kvs : ValueFields),
    writeFields fs r = .ok kvs → kvs.keys = fs.keys := by
  intro r kvs h
  cases fs with
  | nil =>
      have h2 : (Except.ok ValueFields.nil : Except JsError ValueFields) = .ok kvs := h
      obtain rfl := Except.ok.inj h2
      rfl
  | cons k s rest =>
      rw [writeFields.eq_def] at h
      simp only [] at h
      cases hg : getMember r k with
      | error e => rw [hg] at h; exact absurd h (by simp)
      | ok fv =>
          rw [hg] at h
          simp only [exceptBind_ok] at h
          cases h0 : write s fv with
          | error e => rw [h0] at h; exact absurd h (by simp)
          | ok v =>
              rw [h0] at h
              simp only [exceptBind_ok] at h
              cases htl : writeFields rest r with
              | error e => rw [htl] at h; exact absurd h (by simp)
              | ok tl =>
                  rw [htl] at h
                  simp only [exceptBind_ok, Except.ok.injEq] at h
                  subst h
                  simp [ValueFields.keys, SchemaFields.keys, writeFields_keys rest r tl htl]
termination_by structural fs

/-- A successful partial field write binds exactly the declared keys. -/
theorem writePartFields_keys (fs : SchemaFields) : ∀ (r : Value) (kvs : ValueFields),
    writePartFields fs r = .ok kvs → kvs.keys = fs.keys := by
  intro r kvs h
  cases fs with
  | nil =>
      have h2 : (Except.ok ValueFields.nil : Except JsError ValueFields) = .ok kvs := h
      obtain rfl := Except.ok.inj h2
      rfl
  | cons k s rest =>
      rw [writePartFields.eq_def] at h
      simp only [] at h
      cases hg : getMember r k with
      | error e => rw [hg] at h; exact absurd h (by simp)
      | ok fv =>
          rw [hg] at h
          simp only [exceptBind_ok] at h
          by_cases hn : fv.nullish = true
          all_goals first
            | rw [if_pos hn] at h
            | rw [if_neg hn] at h
          all_goals try simp only [exceptBind_ok] at h
          · cases htl : writePartFields rest r with
            | error e => rw [htl] at h; exact absurd h (by simp)
            | ok tl =>
                rw [htl] at h
                simp only [exceptBind_ok, Except.ok.injEq] at h
                subst h
                simp [ValueFields.keys, SchemaFields.keys, writePartFields_keys rest r tl htl]
          · cases h0 : write s fv with
            | error e => rw [h0] at h; exact absurd h (by simp)
            | ok v =>
                rw [h0] at h
                simp only [exceptBind_ok] at h
                cases htl : writePartFields rest r with
                | error e => rw [htl] at h; exact absurd h (by simp)
                | ok tl =>
                    rw [htl] at h
                    simp only [exceptBind_ok, Except.ok.injEq] at h
                    subst h
                    simp [ValueFields.keys, SchemaFields.keys, writePartFields_keys rest r tl htl]
termination_by structural fs

/-- approx respects appending field lists of matching shape. -/
theorem approxF_append (a b c d : ValueFields)
    (h1 : ValueFields.approx a b = true) (h2 : ValueFields.approx c d = true) :
    ValueFields.approx (a.append c) (b.append d) = true := by
  cases a with
  | nil =>
      cases b with
      | nil => exact h2
      | cons k v rest => exact absurd h1 (by simp [ValueFields.approx])
  | cons k v rest =>
      cases b with
      | nil => exact absurd h1 (by simp [ValueFields.approx])
      | cons k2 v2 rest2 =>
          rw [ValueFields.approx] at h1
          simp only [Bool.and_eq_true] at h1
          obtain ⟨⟨hk, hv⟩, hrest⟩ := h1
          simp only [ValueFields.append, ValueFields.approx, Bool.and_eq_true]
          exact ⟨⟨hk, hv⟩, approxF_append rest rest2 c d hrest h2⟩
termination_by structural a

/-- Shifting the write index past a consumed head element. -/
theorem writeTuple_shift (ts : SchemaList) (x : Value) (xs : ValueList) (i : Nat) :
    writeTuple ts (.arr (.cons x xs)) (i + 1) = writeTuple ts (.arr xs) i := by
  cases ts with
  | nil => rfl
  | cons s rest =>
      rw [writeTuple.eq_def]
      conv_rhs => rw [writeTuple.eq_def]
      simp only [getIndex, ValueList.get]
      rw [writeTuple_shift rest x xs (i + 1)]
termination_by structural ts

end SafePortals

namespace SafePortals

/-- Printing a rational with decimal-power denominator and re-parsing it is
the identity (the float print/parse law in the form needed for dates). -/
theorem parseFloat_print_of_dvd (q : ℚ) (k : Nat) (h : q.den ∣ 10 ^ k) :
    parseFloatJS (ratToDecimal q) = some q := by
  obtain ⟨k2, hk2⟩ := decExp_isSome_of_dvd q.den k q.pos h
  exact ratToDecimal_spec q k2 hk2

theorem nullish_str (s : String) : (Value.str s).nullish = false := rfl

theorem nullish_num (q : ℚ) : (Value.num q).nullish = false := rfl

theorem nullish_bool (b : Bool) : (Value.bool b).nullish = false := rfl

theorem nullish_arr (xs : ValueList) : (Value.arr xs).nullish = false := rfl

theorem nullish_obj (kvs : ValueFields) : (Value.obj kvs).nullish = false := rfl

theorem nullish_date (i : Int) : (Value.date i).nullish = false := rfl

/-- A nullish value is approximately undefined. -/
theorem Value.approx_undef_of_nullish (v : Value) (h : v.nullish = true) :
    v.approx .undefined = true := by
  cases v <;> first
    | rfl
    | exact absurd h Bool.false_ne_true

/-- A nullish value is approximately null. -/
theorem Value.approx_vnull_of_nullish (v : Value) (h : v.nullish = true) :
    v.approx .vnull = true := by
  cases v <;> first
    | rfl
    | exact absurd h Bool.false_ne_true

/-- Element-wise round trips lift to `mapValueList` (the `array` case of the
round-trip law). -/
theorem mapValueList_rt (f g : Value → Except JsError Value)
    (hstep : ∀ v t, f v = .ok t →
      ∃ v2 t2, g t = .ok v2 ∧ f v2 = .ok t2 ∧ t.approx t2 = true)
    (xs : ValueList) : ∀ (ts : ValueList), mapValueList f xs = .ok ts →
    ∃ ws ts2, mapValueList g ts = .ok ws ∧ mapValueList f ws = .ok ts2 ∧
      ValueList.approx ts ts2 = true := by
  intro ts h
  cases xs with
  | nil =>
      obtain rfl : ValueList.nil = ts := Except.ok.inj h
      exact ⟨.nil, .nil, rfl, rfl, rfl⟩
  | cons x rest =>
      rw [mapValueList.eq_def] at h
      simp only [] at h
      cases hv : f x with
      | error e => rw [hv] at h; exact absurd h (by simp)
      | ok w =>
          rw [hv] at h
          simp only [exceptBind_ok] at h
          cases htl : mapValueList f rest with
          | error e => rw [htl] at h; exact absurd h (by simp)
          | ok tl =>
              rw [htl] at h
              simp only [exceptBind_ok, Except.ok.injEq] at h
              subst h
              obtain ⟨w2, u, hg, hf2, hax⟩ := hstep x w hv
              obtain ⟨ws2, ts3, hg2, hf3, hax2⟩ := mapValueList_rt f g hstep rest tl htl
              refine ⟨.cons w2 ws2, .cons u ts3, ?_, ?_, ?_⟩
              · rw [mapValueList.eq_def]
                simp only []
                rw [hg]
                simp only [exceptBind_ok]
                rw [hg2]
                simp only [exceptBind_ok]
              · rw [mapValueList.eq_def]
                simp only []
                rw [hf2]
                simp only [exceptBind_ok]
                rw [hf3]
                simp only [exceptBind_ok]
              · simp [ValueList.approx, hax, hax2]
termination_by structural xs

end SafePortals

namespace SafePortals

mutual
/-- The round-trip bundle: a successfully decoded value writes back, re-reads,
and the re-read agrees up to identifying null and undefined; moreover the
written form is only nullish when the typed value was. -/
theorem rtAux (s : Schema) : ∀ (v t : Value), s.wf = true → read s v = .ok t →
    ∃ v2 t2, write s t = .ok v2 ∧ read s v2 = .ok t2 ∧ t.approx t2 = true ∧
      (v2.nullish = true → t.nullish = true) := by
  intro v t hwf h
  cases s with
  | str =>
      rw [read.eq_def] at h
      simp only [] at h
      cases v <;> simp only [] at h
      case str s0 =>
        obtain rfl : Value.str s0 = t := Except.ok.inj h
        exact ⟨.str s0, .str s0, rfl, rfl, Value.approx_refl _, by simp [nullish_str]⟩
      all_goals exact absurd h (by simp)
  | bool =>
      rw [read.eq_def] at h
      simp only [] at h
      cases v <;> simp only [] at h
      case bool b =>
        obtain rfl : Value.bool b = t := Except.ok.inj h
        exact ⟨.bool b, .bool b, rfl, rfl, Value.approx_refl _, by simp [nullish_bool]⟩
      all_goals exact absurd h (by simp)
  | int =>
      rw [read.eq_def] at h
      simp only [] at h
      cases hp : parseIntJS (jsToString v) with
      | none => rw [hp] at h; simp only [] at h; exact absurd h (by simp)
      | some i =>
          rw [hp] at h
          simp only [] at h
          obtain rfl : Value.num (ratOfInt i) = t := Except.ok.inj h
          refine ⟨.num (ratOfInt i), .num (ratOfInt i), rfl, ?_, Value.approx_refl _,
            by simp [nullish_num]⟩
          rw [read.eq_def]
          simp only []
          have hjs : jsToString (Value.num (ratOfInt i)) = ratToDecimal (ratOfInt i) := rfl
          rw [hjs, parseInt_print_parse i]
  | float =>
      rw [read.eq_def] at h
      simp only [] at h
      cases hp : parseFloatJS (jsToString v) with
      | none => rw [hp] at h; simp only [] at h; exact absurd h (by simp)
      | some q =>
          rw [hp] at h
          simp only [] at h
          obtain rfl : Value.num q = t := Except.ok.inj h
          refine ⟨.num q, .num q, rfl, ?_, Value.approx_refl _, by simp [nullish_num]⟩
          rw [read.eq_def]
          simp only []
          have hjs : jsToString (Value.num q) = ratToDecimal q := rfl
          rw [hjs, parseFloat_print_parse (jsToString v) q hp]
  | dateUnixSecs =>
      rw [read.eq_def] at h
      simp only [] at h
      cases hp : parseFloatJS (jsToString v) with
      | none => rw [hp] at h; simp only [] at h; exact absurd h (by simp)
      | some q =>
          rw [hp] at h
          simp only [] at h
          cases hc : timeClip (mulPow10 q 3) with
          | none => rw [hc] at h; simp only [] at h; exact absurd h (by simp)
          | some ms =>
              rw [hc] at h
              simp only [] at h
              obtain rfl : Value.date ms = t := Except.ok.inj h
              have hbound := timeClip_some_bound (mulPow10 q 3) ms hc
              refine ⟨.num (decRat ms 3), .date ms, rfl, ?_, Value.approx_refl _,
                by simp [nullish_num]⟩
              rw [read.eq_def]
              simp only []
              have hjs : jsToString (Value.num (decRat ms 3)) = ratToDecimal (decRat ms 3) := rfl
              rw [hjs, parseFloat_print_of_dvd (decRat ms 3) 3 (decRat_den_dvd ms 3)]
              simp only []
              rw [mulPow10_decRat_cancel ms, timeClip_intCast ms hbound]
  | dateUnixMillis =>
      rw [read.eq_def] at h
      simp only [] at h
      cases hp : parseFloatJS (jsToString v) with
      | none => rw [hp] at h; simp only [] at h; exact absurd h (by simp)
      | some q =>
          rw [hp] at h
          simp only [] at h
          cases hc : timeClip q with
          | none => rw [hc] at h; simp only [] at h; exact absurd h (by simp)
          | some ms =>
              rw [hc] at h
              simp only [] at h
              obtain rfl : Value.date ms = t := Except.ok.inj h
              have hbound := timeClip_some_bound q ms hc
              refine ⟨.num (ratOfInt ms), .date ms, rfl, ?_, Value.approx_refl _,
                by simp [nullish_num]⟩
              rw [read.eq_def]
              simp only []
              have hjs : jsToString (Value.num (ratOfInt ms)) = ratToDecimal (ratOfInt ms) := rfl
              have hdvd : (ratOfInt ms).den ∣ 10 ^ 0 := by
                rw [ratOfInt_den]
                exact one_dvd _
              rw [hjs, parseFloat_print_of_dvd (ratOfInt ms) 0 hdvd]
              simp only []
              rw [ratOfInt_eq ms, timeClip_intCast ms hbound]
  | dateIso =>
      rw [read.eq_def] at h
      simp only [] at h
      cases hd : dateFromString (if v.truthy then jsToString v else "") with
      | none => rw [hd] at h; simp only [] at h; exact absurd h (by simp)
      | some ms =>
          rw [hd] at h
          simp only [] at h
          obtain rfl : Value.date ms = t := Except.ok.inj h
          have hb := dateFromString_bound _ ms hd
          refine ⟨.str (isoRender ms), .date ms, rfl, ?_, Value.approx_refl _,
            by simp [nullish_str]⟩
          rw [read.eq_def]
          simp only []
          have hne : ¬ (isoRender ms = "") := by
            rw [isoRender_ne_empty ms]
            exact not_false
          have ht : (Value.str (isoRender ms)).truthy = true := by
            show decide (isoRender ms ≠ "") = true
            exact decide_eq_true hne
          rw [if_pos ht]
          have hjs : jsToString (Value.str (isoRender ms)) = isoRender ms := rfl
          rw [hjs, dateFromString_isoRender ms hb]
  | nothing =>
      have h2 : (Except.ok Value.undefined : Except JsError Value) = .ok t := h
      obtain rfl : Value.undefined = t := Except.ok.inj h2
      exact ⟨.str "", .undefined, rfl, rfl, rfl, by simp [nullish_str]⟩
  | raw =>
      have h2 : (Except.ok v : Except JsError Value) = .ok t := h
      obtain rfl : v = t := Except.ok.inj h2
      exact ⟨v, v, rfl, rfl, Value.approx_refl _, fun hx => hx⟩
  | optional s =>
      have hswf : s.wf = true := hwf
      rw [read.eq_def] at h
      simp only [] at h
      by_cases hn : v.nullish = true
      · rw [if_pos hn] at h
        obtain rfl : Value.undefined = t := Except.ok.inj h
        exact ⟨.vnull, .undefined, rfl, rfl, rfl, fun _ => rfl⟩
      · rw [if_neg hn] at h
        obtain ⟨v2, t2, hw, hr, hax, hcond⟩ := rtAux s v t hswf h
        by_cases htn : t.nullish = true
        · refine ⟨.vnull, .undefined, ?_, rfl, Value.approx_undef_of_nullish t htn, fun _ => htn⟩
          rw [write.eq_def]
          simp only []
          rw [if_pos htn]
        · have hv2n : ¬ (v2.nullish = true) := fun hh => htn (hcond hh)
          refine ⟨v2, t2, ?_, ?_, hax, hcond⟩
          · rw [write.eq_def]
            simp only []
            rw [if_neg htn]
            exact hw
          · rw [read.eq_def]
            simp only []
            rw [if_neg hv2n]
            exact hr
  | nullable s =>
      have hswf : s.wf = true := hwf
      rw [read.eq_def] at h
      simp only [] at h
      by_cases hn : v.nullish = true
      · rw [if_pos hn] at h
        obtain rfl : Value.vnull = t := Except.ok.inj h
        exact ⟨.vnull, .vnull, rfl, rfl, rfl, fun _ => rfl⟩
      · rw [if_neg hn] at h
        obtain ⟨v2, t2, hw, hr, hax, hcond⟩ := rtAux s v t hswf h
        by_cases htn : t.nullish = true
        · refine ⟨.vnull, .vnull, ?_, rfl, Value.approx_vnull_of_nullish t htn, fun _ => htn⟩
          rw [write.eq_def]
          simp only []
          rw [if_pos htn]
        · have hv2n : ¬ (v2.nullish = true) := fun hh => htn (hcond hh)
          refine ⟨v2, t2, ?_, ?_, hax, hcond⟩
          · rw [write.eq_def]
            simp only []
            rw [if_neg htn]
            exact hw
          · rw [read.eq_def]
            simp only []
            rw [if_neg hv2n]
            exact hr
  | array s =>
      have hswf : s.wf = true := hwf
      rw [read.eq_def] at h
      simp only [] at h
      cases v <;> simp only [] at h
      case arr xs =>
        cases hm : mapValueList (fun v => read s v) xs with
        | error e => rw [hm] at h; exact absurd h (by simp)
        | ok ts =>
            rw [hm] at h
            simp only [exceptMap_ok, Except.ok.injEq] at h
            subst h
            have hstep : ∀ w t0, read s w = .ok t0 →
                ∃ w2 t02, write s t0 = .ok w2 ∧ read s w2 = .ok t02 ∧
                  t0.approx t02 = true := by
              intro w t0 hw0
              obtain ⟨w2, t02, a, b, c, _⟩ := rtAux s w t0 hswf hw0
              exact ⟨w2, t02, a, b, c⟩
            obtain ⟨ws, ts2, hwm, hrm, haxm⟩ :=
              mapValueList_rt (fun v => read s v) (fun v => write s v) hstep xs ts hm
            refine ⟨.arr ws, .arr ts2, ?_, ?_, haxm, by simp [nullish_arr]⟩
            · rw [write.eq_def]
              simp only []
              rw [hwm]
              rfl
            · rw [read.eq_def]
              simp only []
              rw [hrm]
              rfl
      all_goals exact absurd h (by simp)
  | obj fs =>
      have hwf' : (decide fs.keys.Nodup && SchemaFields.wf fs) = true := hwf
      simp only [Bool.and_eq_true, decide_eq_true_eq] at hwf'
      obtain ⟨hnd, hfwf⟩ := hwf'
      rw [read.eq_def] at h
      simp only [] at h
      cases hr : readFields fs v with
      | error e => rw [hr] at h; exact absurd h (by simp)
      | ok kvs =>
          rw [hr] at h
          simp only [exceptMap_ok, Except.ok.injEq] at h
          subst h
          obtain ⟨kvs2, kvs3, hw2, hr2, hax⟩ := rtFieldsAux fs v kvs hfwf hnd hr
          refine ⟨.obj kvs2, .obj kvs3, ?_, ?_, hax, by simp [nullish_obj]⟩
          · rw [write.eq_def]
            simp only []
            rw [hw2]
            rfl
          · rw [read.eq_def]
            simp only []
            rw [hr2]
            rfl
  | part_obj fs =>
      have hwf' : (decide fs.keys.Nodup && SchemaFields.wf fs) = true := hwf
      simp only [Bool.and_eq_true, decide_eq_true_eq] at hwf'
      obtain ⟨hnd, hfwf⟩ := hwf'
      rw [read.eq_def] at h
      simp only [] at h
      cases hr : readPartFields fs v with
      | error e => rw [hr] at h; exact absurd h (by simp)
      | ok kvs =>
          rw [hr] at h
          simp only [exceptMap_ok, Except.ok.injEq] at h
          subst h
          obtain ⟨kvs2, kvs3, hw2, hr2, hax⟩ := rtPartFieldsAux fs v kvs hfwf hnd hr
          refine ⟨.obj kvs2, .obj kvs3, ?_, ?_, hax, by simp [nullish_obj]⟩
          · rw [write.eq_def]
            simp only []
            rw [hw2]
            rfl
          · rw [read.eq_def]
            simp only []
            rw [hr2]
            rfl
  | tuple ts =>
      have hswf : SchemaList.wf ts = true := hwf
      rw [read.eq_def] at h
      simp only [] at h
      cases v <;> simp only [] at h
      case arr xs =>
        cases hr : readTuple ts xs with
        | error e => rw [hr] at h; exact absurd h (by simp)
        | ok vs =>
            rw [hr] at h
            simp only [exceptMap_ok, Except.ok.injEq] at h
            subst h
            obtain ⟨ws, vs2, hw2, hr2, hax⟩ := rtTupleAux ts xs vs hswf hr
            refine ⟨.arr ws, .arr vs2, ?_, ?_, hax, by simp [nullish_arr]⟩
            · rw [write.eq_def]
              simp only []
              rw [hw2]
              rfl
            · rw [read.eq_def]
              simp only []
              rw [hr2]
              rfl
      all_goals exact absurd h (by simp)
  | oneOf keys =>
      rw [read.eq_def] at h
      simp only [] at h
      cases v <;> simp only [] at h
      case str s0 =>
        by_cases hc : keys.contains s0 = true
        · rw [if_pos hc] at h
          obtain rfl : Value.str s0 = t := Except.ok.inj h
          refine ⟨.str s0, .str s0, rfl, ?_, Value.approx_refl _, by simp [nullish_str]⟩
          rw [read.eq_def]
          simp only []
          rw [if_pos hc]
        · rw [if_neg hc] at h
          exact absurd h (by simp)
      all_goals exact absurd h (by simp)
  | variant bs =>
      have hbwf : SchemaBranches.wf bs = true := hwf
      rw [read.eq_def] at h
      simp only [] at h
      cases hg : getMember v "type" with
      | error e => rw [hg] at h; exact absurd h (by simp)
      | ok tg =>
          rw [hg] at h
          simp only [exceptBind_ok] at h
          obtain ⟨tf, v2f, ht, hlt, hwB, hlv2, hread⟩ := rtBranchesAux bs _ tg v t hbwf h
          subst ht
          obtain ⟨t2f, hr2, haxf⟩ :=
            hread (.parseError ("type in " ++ tagsJson bs.tags) (.obj v2f))
          refine ⟨.obj v2f, .obj t2f, ?_, ?_, haxf, by simp [nullish_obj]⟩
          · rw [write.eq_def]
            simp only [getMember_obj, exceptBind_ok]
            rw [hlt]
            exact hwB
          · rw [read.eq_def]
            simp only [getMember_obj, exceptBind_ok]
            rw [hlv2]
            exact hr2
termination_by structural s

/-- Round trip for the `obj` field loop: the decoded record writes back and
re-reads field-by-field, approximately. -/
theorem rtFieldsAux (fs : SchemaFields) : ∀ (o : Value) (kvs : ValueFields),
    SchemaFields.wf fs = true → fs.keys.Nodup → readFields fs o = .ok kvs →
    ∃ kvs2 kvs3, writeFields fs (.obj kvs) = .ok kvs2 ∧
      readFields fs (.obj kvs2) = .ok kvs3 ∧ ValueFields.approx kvs kvs3 = true := by
  intro o kvs hwf hnd h
  cases fs with
  | nil =>
      have h2 : (Except.ok ValueFields.nil : Except JsError ValueFields) = .ok kvs := h
      obtain rfl := Except.ok.inj h2
      exact ⟨.nil, .nil, rfl, rfl, rfl⟩
  | cons k s rest =>
      have hwf' : (s.wf && SchemaFields.wf rest) = true := hwf
      simp only [Bool.and_eq_true] at hwf'
      obtain ⟨hswf, hrwf⟩ := hwf'
      have hnd1 : (k :: rest.keys).Nodup := hnd
      rw [List.nodup_cons] at hnd1
      obtain ⟨hkr, hnd'⟩ := hnd1
      rw [readFields.eq_def] at h
      simp only [] at h
      by_cases ho : o.objLike = true
      case neg => rw [if_neg ho] at h; exact absurd h (by simp)
      rw [if_pos ho] at h
      cases hv : read s (o.getProp k) with
      | error e => rw [hv] at h; exact absurd h (by simp)
      | ok vk =>
      rw [hv] at h
      simp only [exceptBind_ok] at h
      cases htl : readFields rest o with
      | error e => rw [htl] at h; exact absurd h (by simp)
      | ok tl =>
      rw [htl] at h
      simp only [exceptBind_ok, Except.ok.injEq] at h
      subst h
      obtain ⟨wk, uk, hwv, hrv, haxv, _⟩ := rtAux s (o.getProp k) vk hswf hv
      obtain ⟨tl2, tl3, hw2, hr2, hax2⟩ := rtFieldsAux rest o tl hrwf hnd' htl
      have hgetgen : ∀ (w : Value) (tlx : ValueFields), ∀ k2,
          rest.keys.contains k2 = true →
          (ValueFields.cons k w tlx).lookup k2 = tlx.lookup k2 := by
        intro w tlx k2 hk2
        have hmem : k2 ∈ rest.keys := by simpa using hk2
        have hne : ¬ (k = k2) := fun he => hkr (he ▸ hmem)
        simp [ValueFields.lookup, hne]
      refine ⟨.cons k wk tl2, .cons k uk tl3, ?_, ?_, ?_⟩
      · rw [writeFields.eq_def]
        simp only [getMember_obj, exceptBind_ok]
        have hlk : (ValueFields.cons k vk tl).lookup k = vk := by simp [ValueFields.lookup]
        rw [hlk, hwv]
        simp only [exceptBind_ok]
        rw [writeFields_congr rest _ tl (hgetgen vk tl), hw2]
        simp only [exceptBind_ok]
      · rw [readFields.eq_def]
        simp only []
        rw [if_pos (show (Value.obj (ValueFields.cons k wk tl2)).objLike = true from rfl)]
        have hgp : (Value.obj (ValueFields.cons k wk tl2)).getProp k = wk := by
          simp [Value.getProp, ValueFields.lookup]
        rw [hgp, hrv]
        simp only [exceptBind_ok]
        rw [readFields_congr rest _ tl2 (hgetgen wk tl2), hr2]
        simp only [exceptBind_ok]
      · simp [ValueFields.approx, haxv, hax2]
termination_by structural fs

/-- Round trip for the `partial_obj` field loop: nullish fields collapse to
null on write and back to undefined on re-read, non-nullish fields round-trip
through the inner schema. -/
theorem rtPartFieldsAux (fs : SchemaFields) : ∀ (o : Value) (kvs : ValueFields),
    SchemaFields.wf fs = true → fs.keys.Nodup → readPartFields fs o = .ok kvs →
    ∃ kvs2 kvs3, writePartFields fs (.obj kvs) = .ok kvs2 ∧
      readPartFields fs (.obj kvs2) = .ok kvs3 ∧ ValueFields.approx kvs kvs3 = true := by
  intro o kvs hwf hnd h
  cases fs with
  | nil =>
      have h2 : (Except.ok ValueFields.nil : Except JsError ValueFields) = .ok kvs := h
      obtain rfl := Except.ok.inj h2
      exact ⟨.nil, .nil, rfl, rfl, rfl⟩
  | cons k s rest =>
      have hwf' : (s.wf && SchemaFields.wf rest) = true := hwf
      simp only [Bool.and_eq_true] at hwf'
      obtain ⟨hswf, hrwf⟩ := hwf'
      have hnd1 : (k :: rest.keys).Nodup := hnd
      rw [List.nodup_cons] at hnd1
      obtain ⟨hkr, hnd'⟩ := hnd1
      have hgetgen : ∀ (w : Value) (tlx : ValueFields), ∀ k2,
          rest.keys.contains k2 = true →
          (ValueFields.cons k w tlx).lookup k2 = tlx.lookup k2 := by
        intro w tlx k2 hk2
        have hmem : k2 ∈ rest.keys := by simpa using hk2
        have hne : ¬ (k = k2) := fun he => hkr (he ▸ hmem)
        simp [ValueFields.lookup, hne]
      rw [readPartFields.eq_def] at h
      simp only [] at h
      by_cases ho : o.objLike = true
      case neg => rw [if_neg ho] at h; exact absurd h (by simp)
      rw [if_pos ho] at h
      by_cases hn : (o.getProp k).nullish = true
      · rw [if_pos hn] at h
        simp only [exceptBind_ok] at h
        cases htl : readPartFields rest o with
        | error e => rw [htl] at h; exact absurd h (by simp)
        | ok tl =>
        rw [htl] at h
        simp only [exceptBind_ok, Except.ok.injEq] at h
        subst h
        obtain ⟨tl2, tl3, hw2, hr2, hax2⟩ := rtPartFieldsAux rest o tl hrwf hnd' htl
        refine ⟨.cons k .vnull tl2, .cons k .undefined tl3, ?_, ?_, ?_⟩
        · rw [writePartFields.eq_def]
          simp only [getMember_obj, exceptBind_ok]
          have hlk : (ValueFields.cons k Value.undefined tl).lookup k = Value.undefined := by
            simp [ValueFields.lookup]
          rw [hlk]
          rw [if_pos (show Value.undefined.nullish = true from rfl)]
          try simp only [exceptBind_ok]
          rw [writePartFields_congr rest _ tl (hgetgen Value.undefined tl), hw2]
          simp only [exceptBind_ok]
        · rw [readPartFields.eq_def]
          simp only []
          rw [if_pos (show (Value.obj (ValueFields.cons k Value.vnull tl2)).objLike = true
            from rfl)]
          have hgp : (Value.obj (ValueFields.cons k Value.vnull tl2)).getProp k = Value.vnull := by
            simp [Value.getProp, ValueFields.lookup]
          rw [hgp]
          rw [if_pos (show Value.vnull.nullish = true from rfl)]
          simp only [exceptBind_ok]
          rw [readPartFields_congr rest _ tl2 (hgetgen Value.vnull tl2), hr2]
          simp only [exceptBind_ok]
        · simp [ValueFields.approx, Value.approx, Value.nullish, hax2]
      · rw [if_neg hn] at h
        cases hv : read s (o.getProp k) with
        | error e => rw [hv] at h; exact absurd h (by simp)
        | ok vk =>
        rw [hv] at h
        simp only [exceptBind_ok] at h
        cases htl : readPartFields rest o with
        | error e => rw [htl] at h; exact absurd h (by simp)
        | ok tl =>
        rw [htl] at h
        simp only [exceptBind_ok, Except.ok.injEq] at h
        subst h
        obtain ⟨wk, uk, hwv, hrv, haxv, hcond⟩ := rtAux s (o.getProp k) vk hswf hv
        obtain ⟨tl2, tl3, hw2, hr2, hax2⟩ := rtPartFieldsAux rest o tl hrwf hnd' htl
        by_cases hvn : vk.nullish = true
        · refine ⟨.cons k .vnull tl2, .cons k .undefined tl3, ?_, ?_, ?_⟩
          · rw [writePartFields.eq_def]
            simp only [getMember_obj, exceptBind_ok]
            have hlk : (ValueFields.cons k vk tl).lookup k = vk := by
              simp [ValueFields.lookup]
            rw [hlk]
            rw [if_pos hvn]
            try simp only [exceptBind_ok]
            rw [writePartFields_congr rest _ tl (hgetgen vk tl), hw2]
            simp only [exceptBind_ok]
          · rw [readPartFields.eq_def]
            simp only []
            rw [if_pos (show (Value.obj (ValueFields.cons k Value.vnull tl2)).objLike = true
              from rfl)]
            have hgp : (Value.obj (ValueFields.cons k Value.vnull tl2)).getProp k
                = Value.vnull := by
              simp [Value.getProp, ValueFields.lookup]
            rw [hgp]
            rw [if_pos (show Value.vnull.nullish = true from rfl)]
            simp only [exceptBind_ok]
            rw [readPartFields_congr rest _ tl2 (hgetgen Value.vnull tl2), hr2]
            simp only [exceptBind_ok]
          · simp [ValueFields.approx, hax2, Value.approx_undef_of_nullish vk hvn]
        · have hwn : ¬ (wk.nullish = true) := fun hh => hvn (hcond hh)
          refine ⟨.cons k wk tl2, .cons k uk tl3, ?_, ?_, ?_⟩
          · rw [writePartFields.eq_def]
            simp only [getMember_obj, exceptBind_ok]
            have hlk : (ValueFields.cons k vk tl).lookup k = vk := by
              simp [ValueFields.lookup]
            rw [hlk]
            rw [if_neg hvn]
            rw [hwv]
            simp only [exceptBind_ok]
            rw [writePartFields_congr rest _ tl (hgetgen vk tl), hw2]
            simp only [exceptBind_ok]
          · rw [readPartFields.eq_def]
            simp only []
            rw [if_pos (show (Value.obj (ValueFields.cons k wk tl2)).objLike = true from rfl)]
            have hgp : (Value.obj (ValueFields.cons k wk tl2)).getProp k = wk := by
              simp [Value.getProp, ValueFields.lookup]
            rw [hgp]
            rw [if_neg hwn]
            rw [hrv]
            simp only [exceptBind_ok]
            rw [readPartFields_congr rest _ tl2 (hgetgen wk tl2), hr2]
            simp only [exceptBind_ok]
          · simp [ValueFields.approx, haxv, hax2]
termination_by structural fs

/-- Round trip for the tuple position loop. -/
theorem rtTupleAux (ts : SchemaList) : ∀ (xs vs : ValueList),
    SchemaList.wf ts = true → readTuple ts xs = .ok vs →
    ∃ ws vs2, writeTuple ts (.arr vs) 0 = .ok ws ∧ readTuple ts ws = .ok vs2 ∧
      ValueList.approx vs vs2 = true := by
  intro xs vs hwf h
  cases ts with
  | nil =>
      have h2 : (Except.ok ValueList.nil : Except JsError ValueList) = .ok vs := h
      obtain rfl := Except.ok.inj h2
      exact ⟨.nil, .nil, rfl, rfl, rfl⟩
  | cons s rest =>
      have hwf' : (s.wf && SchemaList.wf rest) = true := hwf
      simp only [Bool.and_eq_true] at hwf'
      obtain ⟨hswf, hrwf⟩ := hwf'
      rw [readTuple.eq_def] at h
      simp only [] at h
      cases hv : read s (xs.get 0) with
      | error e => rw [hv] at h; exact absurd h (by simp)
      | ok v0 =>
      rw [hv] at h
      simp only [exceptBind_ok] at h
      cases htl : readTuple rest xs.tail with
      | error e => rw [htl] at h; exact absurd h (by simp)
      | ok vtl =>
      rw [htl] at h
      simp only [exceptBind_ok, Except.ok.injEq] at h
      subst h
      obtain ⟨w0, u0, hw0, hr0, hax0, _⟩ := rtAux s (xs.get 0) v0 hswf hv
      obtain ⟨ws2, vs2, hw2, hr2, hax2⟩ := rtTupleAux rest xs.tail vtl hrwf htl
      refine ⟨.cons w0 ws2, .cons u0 vs2, ?_, ?_, ?_⟩
      · rw [writeTuple.eq_def]
        simp only []
        have hgi : getIndex (Value.arr (ValueList.cons v0 vtl)) 0 = .ok v0 := rfl
        rw [hgi]
        simp only [exceptBind_ok]
        rw [hw0]
        simp only [exceptBind_ok]
        rw [writeTuple_shift rest v0 vtl 0, hw2]
        simp only [exceptBind_ok]
      · rw [readTuple.eq_def]
        simp only [ValueList.get, ValueList.tail]
        rw [hr0]
        simp only [exceptBind_ok]
        rw [hr2]
        simp only [exceptBind_ok]
      · simp [ValueList.approx, hax0, hax2]
termination_by structural ts

/-- Round trip for variant branch dispatch: the decoded object carries the
discriminant, writes back through the same first matching branch, and
re-reads to an approximately equal object with the same discriminant. -/
theorem rtBranchesAux (bs : SchemaBranches) : ∀ (err : JsError) (tg o t : Value),
    SchemaBranches.wf bs = true → readBranches err bs tg o = .ok t →
    ∃ tf v2f, t = .obj tf ∧ tf.lookup "type" = tg ∧
      writeBranches bs tg t = .ok (.obj v2f) ∧ v2f.lookup "type" = tg ∧
      ∀ err2 : JsError, ∃ t2f, readBranches err2 bs tg (.obj v2f) = .ok (.obj t2f) ∧
        ValueFields.approx tf t2f = true := by
  intro err tg o t hwf h
  cases bs with
  | nil =>
      rw [readBranches.eq_def] at h
      exact absurd h (by simp)
  | cons tag isPart fields rest =>
      have hwf4 : (decide fields.keys.Nodup && !(fields.keys.contains "type") &&
          SchemaFields.wf fields && SchemaBranches.wf rest) = true := hwf
      simp only [Bool.and_eq_true, Bool.not_eq_true', decide_eq_true_eq] at hwf4
      obtain ⟨⟨⟨hnd, hna⟩, hfwf⟩, hrwf⟩ := hwf4
      have htyne : ∀ k2, fields.keys.contains k2 = true → ¬ (("type" : String) = k2) := by
        intro k2 hk2 he
        rw [← he, hna] at hk2
        exact Bool.false_ne_true hk2
      rw [readBranches.eq_def] at h
      simp only [] at h
      by_cases htg : tg = Value.str tag
      · rw [if_pos htg] at h
        cases isPart with
        | false =>
            rw [if_neg Bool.false_ne_true] at h
            cases hk : readFields fields o with
            | error e => rw [hk] at h; exact absurd h (by simp)
            | ok kvs =>
            rw [hk] at h
            simp only [exceptBind_ok, Except.ok.injEq] at h
            subst h
            have hkeys := readFields_keys fields o kvs hk
            obtain ⟨kvs2, kvs3, hw2, hr2, hax2⟩ := rtFieldsAux fields o kvs hfwf hnd hk
            have hkeys3 := readFields_keys fields (.obj kvs2) kvs3 hr2
            refine ⟨kvs.set "type" tg, kvs2.set "type" tg, rfl,
              ValueFields.lookup_set_self kvs "type" tg, ?_,
              ValueFields.lookup_set_self kvs2 "type" tg, ?_⟩
            · rw [writeBranches.eq_def]
              simp only []
              rw [if_pos htg]
              rw [if_neg Bool.false_ne_true]
              rw [writeFields_congr fields _ kvs
                (fun k2 hk2 => ValueFields.lookup_set_ne kvs "type" k2 tg (htyne k2 hk2)), hw2]
              simp only [exceptBind_ok]
            · intro err2
              refine ⟨kvs3.set "type" tg, ?_, ?_⟩
              · rw [readBranches.eq_def]
                simp only []
                rw [if_pos htg]
                rw [if_neg Bool.false_ne_true]
                rw [readFields_congr fields _ kvs2
                  (fun k2 hk2 => ValueFields.lookup_set_ne kvs2 "type" k2 tg (htyne k2 hk2)),
                  hr2]
                simp only [exceptBind_ok]
              · rw [ValueFields.set_absent kvs "type" tg (by rw [hkeys]; exact hna),
                  ValueFields.set_absent kvs3 "type" tg (by rw [hkeys3]; exact hna)]
                exact approxF_append kvs kvs3 _ _ hax2 (ValueFields.approxF_refl _)
        | true =>
            rw [if_pos rfl] at h
            cases hk : readPartFields fields o with
            | error e => rw [hk] at h; exact absurd h (by simp)
            | ok kvs =>
            rw [hk] at h
            simp only [exceptBind_ok, Except.ok.injEq] at h
            subst h
            have hkeys := readPartFields_keys fields o kvs hk
            obtain ⟨kvs2, kvs3, hw2, hr2, hax2⟩ := rtPartFieldsAux fields o kvs hfwf hnd hk
            have hkeys3 := readPartFields_keys fields (.obj kvs2) kvs3 hr2
            refine ⟨kvs.set "type" tg, kvs2.set "type" tg, rfl,
              ValueFields.lookup_set_self kvs "type" tg, ?_,
              ValueFields.lookup_set_self kvs2 "type" tg, ?_⟩
            · rw [writeBranches.eq_def]
              simp only []
              rw [if_pos htg]
              first
                | rw [if_pos rfl]
                | rw [if_pos trivial]
              rw [writePartFields_congr fields _ kvs
                (fun k2 hk2 => ValueFields.lookup_set_ne kvs "type" k2 tg (htyne k2 hk2)), hw2]
              simp only [exceptBind_ok]
            · intro err2
              refine ⟨kvs3.set "type" tg, ?_, ?_⟩
              · rw [readBranches.eq_def]
                simp only []
                rw [if_pos htg]
                first
                  | rw [if_pos rfl]
                  | rw [if_pos trivial]
                rw [readPartFields_congr fields _ kvs2
                  (fun k2 hk2 => ValueFields.lookup_set_ne kvs2 "type" k2 tg (htyne k2 hk2)),
                  hr2]
                simp only [exceptBind_ok]
              · rw [ValueFields.set_absent kvs "type" tg (by rw [hkeys]; exact hna),
                  ValueFields.set_absent kvs3 "type" tg (by rw [hkeys3]; exact hna)]
                exact approxF_append kvs kvs3 _ _ hax2 (ValueFields.approxF_refl _)
      · rw [if_neg htg] at h
        obtain ⟨tf, v2f, ht, hlt, hwB, hlv2, hread⟩ := rtBranchesAux rest err tg o t hrwf h
        refine ⟨tf, v2f, ht, hlt, ?_, hlv2, ?_⟩
        · rw [writeBranches.eq_def]
          simp only []
          rw [if_neg htg]
          exact hwB
        · intro err2
          obtain ⟨t2f, hrb, hxf⟩ := hread err2
          refine ⟨t2f, ?_, hxf⟩
          rw [readBranches.eq_def]
          simp only []
          rw [if_neg htg]
          exact hrb
termination_by structural bs
end

end SafePortals

namespace SafePortals

/-- C1 counterexample to the claim as stated: for the schema
`nullable(nothing)` — well-formed and free of the numeric leaves, so inside
the amended law's domain — and input `"x"`, read yields undefined, write
maps it to null, and the re-read yields null: not a value equal to the
original typed value (undefined).  The round trip only closes up to
identifying the two nullish values. -/
theorem c1_counterexample :
    Schema.wf (.nullable .nothing) = true ∧
    Schema.numFree (.nullable .nothing) = true ∧
    read (.nullable .nothing) (.str "x") = .ok .undefined ∧
    write (.nullable .nothing) .undefined = .ok .vnull ∧
    read (.nullable .nothing) .vnull = .ok .vnull ∧
    Value.vnull ≠ Value.undefined := by decide

/-- C1 (corrected): round-trip law up to the absent sentinel, away from the
numeric leaves.  For every schema that is well-formed (object literals with
distinct keys, no variant payload declaring a field named `type`) and avoids
the number-printing leaves int, float, dateUnixSecs and dateUnixMillis, and
for every untyped value `v` such that `read s v` succeeds yielding `t`:
`write s t` succeeds producing `v2`, and `read s v2` succeeds yielding a
value equal to `t` up to identifying the two nullish values null and
undefined.  Exact equality fails even on this domain (see the
counterexample), and the excluded numeric leaves break the law in the
library itself: JS prints |x| ≥ 1e21 in exponential notation and parseInt
rounds to an IEEE-754 double, so int reading a 1 followed by 23 zeros yields
about 1e23, whose rendering "1e+23" re-parses under parseInt to 1 — host
behaviour outside this embedding's exact plain-decimal number model, hence
outside the asserted domain. -/
theorem c1_roundtrip (s : Schema) (v t : Value) (hwf : s.wf = true)
    (hnf : s.numFree = true) (h : read s v = .ok t) :
    ∃ v2 t2, write s t = .ok v2 ∧ read s v2 = .ok t2 ∧ t.approx t2 = true := by
  obtain ⟨v2, t2, h1, h2, h3, _⟩ := rtAux s v t hwf h
  exact ⟨v2, t2, h1, h2, h3⟩

/-- C1 witness: the round-trip theorem applied to `optional(str)` reading the
string "hi". -/
theorem c1_roundtrip_witness :
    Schema.wf (.optional .str) = true ∧
    Schema.numFree (.optional .str) = true ∧
    read (.optional .str) (.str "hi") = .ok (.str "hi") ∧
    (∃ v2 t2, write (.optional .str) (.str "hi") = .ok v2 ∧
      read (.optional .str) v2 = .ok t2 ∧ (Value.str "hi").approx t2 = true) :=
  ⟨by decide, by decide, by decide,
    c1_roundtrip (.optional .str) (.str "hi") (.str "hi") (by decide) (by decide)
      (by decide)⟩

end SafePortals
